import Mathlib

/-!
# Verification of the traffic-violation notice OCR engine (`template_app.py`)

This file gives a shallow embedding, in Lean 4, of the field-extraction and
normalization engine of the repository: the date normalizer
(`fmt_date_uniform`), the document classifier (`classify_image_type`), the
template-acquisition click handling (`handle_image_click`,
`apply_coordinates`, the click-signature guard of
`create_clickable_image_with_coordinates`, and the manual-input commit), the
keyword cascades for fine amounts and plate fragments
(`extract_fine_amount_from_text`, `extract_vehicle_number_from_text`), the
region extraction pipeline (`extract_text_from_region`,
`process_template_based_ocr`, `post_process_text`), the roster matcher
(`match_vehicle_number`, including `difflib.SequenceMatcher.ratio`), and the
final record assembly (`compile_final_results`).

Modelling conventions:
* Python strings are `List Char`; Python's `re` whitespace class `\s` is
  modelled by the characters space, tab, newline and carriage return (the
  only whitespace that can occur in the OCR strings handled here).
* The regular-expression searches of the source are compiled by hand into
  scanning functions with the exact Python semantics: leftmost match wins,
  quantifiers are greedy with backtracking, lookarounds are checked at the
  match position.
* The current calendar year (`datetime.now().year`) is an explicit `curYear`
  argument.
* The external OCR provider is an explicit argument returning
  `Except err text`; `difflib` float ratios are modelled as exact rationals
  (numerator and denominator are small integers).
-/

namespace TemplateApp

/-! ## Basic string utilities (Python `str` and `re` helpers) -/

/-- Whitespace for Python's `str.strip` and the regex class `\s`
(restricted to the four whitespace characters relevant to OCR text). -/
def isWs (c : Char) : Bool :=
  c == ' ' || c == '\t' || c == '\n' || c == '\r'

/-- Python `s.strip()`. -/
def pyStrip (s : List Char) : List Char :=
  ((s.dropWhile isWs).reverse.dropWhile isWs).reverse

/-- Python `re.sub(r"\s+", "", s)`: delete every whitespace character. -/
def removeWs (s : List Char) : List Char :=
  s.filter (fun c => !isWs c)

/-- Auxiliary scanner for `collapseWs`; the flag records whether the
previous character was whitespace. -/
def collapseWsAux : List Char → Bool → List Char
  | [], _ => []
  | c :: rest, prev =>
    if isWs c then
      (if prev then collapseWsAux rest true else ' ' :: collapseWsAux rest true)
    else c :: collapseWsAux rest false

/-- Python `re.sub(r"\s+", " ", s)`: each maximal whitespace run becomes one
space. -/
def collapseWs (s : List Char) : List Char :=
  collapseWsAux s false

/-- Tests whether `nee` is an initial segment of `hay`. -/
def startsWith : List Char → List Char → Bool
  | _, [] => true
  | [], _ :: _ => false
  | h :: hs, n :: ns => h == n && startsWith hs ns

/-- Python's substring test `nee in hay` (an empty needle always matches). -/
def hasSub : List Char → List Char → Bool
  | [], nee => nee.isEmpty
  | c :: rest, nee => startsWith (c :: rest) nee || hasSub rest nee

/-- Python `line.split("\n")` (`splitOnNl "" = [""]`, like Python). -/
def splitOnNlAux : List Char → List Char → List (List Char)
  | [], cur => [cur.reverse]
  | c :: rest, cur =>
    if c == '\n' then cur.reverse :: splitOnNlAux rest []
    else splitOnNlAux rest (c :: cur)

def splitOnNl (s : List Char) : List (List Char) :=
  splitOnNlAux s []

/-- Python `"\n".join(lines)`. -/
def joinNl : List (List Char) → List Char
  | [] => []
  | [l] => l
  | l :: rest => l ++ '\n' :: joinNl rest

/-- The text remaining after the first occurrence of `key`
(Python `line[line.find(key) + len(key):]` when `key in line`). -/
def afterFirst (key : List Char) : List Char → Option (List Char)
  | [] => if key.isEmpty then some [] else none
  | c :: rest =>
    if startsWith (c :: rest) key then some ((c :: rest).drop key.length)
    else afterFirst key rest

/-- Python `re.findall(r"\d+", s)`: the maximal digit runs of `s`, in
order.  `cur` is the digit run currently being read, reversed. -/
def digitRunsAux : List Char → List Char → List (List Char)
  | [], cur => if cur.isEmpty then [] else [cur.reverse]
  | c :: rest, cur =>
    if c.isDigit then digitRunsAux rest (c :: cur)
    else if cur.isEmpty then digitRunsAux rest []
    else cur.reverse :: digitRunsAux rest []

def digitRuns (s : List Char) : List (List Char) :=
  digitRunsAux s []

/-- Maximal runs of characters satisfying `p` (used for
`re.findall(r"[\d,]+", s)`). -/
def charRunsAux (p : Char → Bool) : List Char → List Char → List (List Char)
  | [], cur => if cur.isEmpty then [] else [cur.reverse]
  | c :: rest, cur =>
    if p c then charRunsAux p rest (c :: cur)
    else if cur.isEmpty then charRunsAux p rest []
    else cur.reverse :: charRunsAux p rest []

def charRuns (p : Char → Bool) (s : List Char) : List (List Char) :=
  charRunsAux p s []

/-- Python `int(digit-string)`: value of a decimal digit string
(`toNatD [] = 0`). -/
def toNatD (l : List Char) : Nat :=
  l.foldl (fun a c => a * 10 + (c.toNat - 48)) 0

/-- Fuel-driven digit expansion; any `fuel > n` yields the digits of `n`. -/
def natDigitsAux : Nat → Nat → List Char
  | 0, _ => []
  | fuel + 1, n =>
    if n < 10 then [Nat.digitChar n]
    else natDigitsAux fuel (n / 10) ++ [Nat.digitChar (n % 10)]

/-- Decimal digits of `n`, most significant first (`natDigits 0 = ['0']`). -/
def natDigits (n : Nat) : List Char :=
  natDigitsAux (n + 1) n

/-- Python `f"{n:0kd}"`: decimal digits padded with zeros to at least `k`
characters. -/
def padZ (k : Nat) (n : Nat) : List Char :=
  List.replicate (k - (natDigits n).length) '0' ++ natDigits n

/-- Thousands grouping of a reversed digit list (`k` counts emitted digits). -/
def commaRev : List Char → Nat → List Char
  | [], _ => []
  | c :: rest, k =>
    if k ≠ 0 && k % 3 == 0 then ',' :: c :: commaRev rest (k + 1)
    else c :: commaRev rest (k + 1)

/-- Python `f"{n:,}"`: decimal digits with thousands separators. -/
def fmtComma (n : Nat) : List Char :=
  (commaRev (natDigits n).reverse 0).reverse

/-- Match exactly `n` digits at the front of `s`
(the regex atom `\d{n}`), returning the digits and the rest. -/
def tryDigits (s : List Char) : Nat → Option (List Char × List Char)
  | 0 => some ([], s)
  | n + 1 =>
    match s with
    | c :: rest =>
      if c.isDigit then
        match tryDigits rest n with
        | some (d, r) => some (c :: d, r)
        | none => none
      else none
    | [] => none

/-- The regex atom `\s*`: skip spaces greedily (all patterns below apply it
in positions where the following atom cannot match a space, so greedy
skipping needs no backtracking). -/
def skipSp (s : List Char) : List Char :=
  s.dropWhile (fun c => isWs c)

/-- Greedy bounded repetition `\d{lo,hi}` with backtracking: try the digit
counts in `lens` (given longest first) and continue with `k`; the first
continuation that succeeds wins. -/
def tdThen (lens : List Nat) (s : List Char)
    (k : List Char → List Char → Option α) : Option α :=
  lens.foldr
    (fun n acc => ((tryDigits s n).bind (fun dr => k dr.1 dr.2)).orElse (fun _ => acc))
    none

/-! ## Date normalizer (`fmt_date_uniform`, template_app.py lines 49-140)

The Python function cleans the input, then tries the priority-ordered
patterns 0a (`(?<!\d)(\d{4})(\d{2})(\d{2})(?!\d)`),
0b (`(?<!\d)(\d{2})(\d{2})(\d{2})(?!\d)`),
1 (`(\d{2,4})\s*[-./]\s*(\d{1,2})\s*[-./]\s*(\d{1,2})`),
2 (the unit markers `년`, `월`, `일`),
3 (`(?<!\d)(\d{1,2})\s*[-./]\s*(\d{1,2})(?!\d)`),
4 (digit runs split by length heuristics), and finally normalizes the
captured year/month/day strings. -/

/-- The character class `[\d./\-년월일]` kept by the cleaning substitution. -/
def dateKeep (c : Char) : Bool :=
  c.isDigit || c == '.' || c == '/' || c == '-' || c == '년' || c == '월' || c == '일'

/-- Lines 60-61: `cleaned = re.sub(r"[^\d./\-년월일]", " ", src)` followed by
`re.sub(r"\s+", " ", cleaned).strip()`. -/
def cleanDate (s : List Char) : List Char :=
  pyStrip (collapseWs (s.map (fun c => if dateKeep c then c else ' ')))

/-- A date separator `[-./]`. -/
def isSep (c : Char) : Bool :=
  c == '-' || c == '.' || c == '/'

/-- After `\s*`, require a separator, then skip `\s*` and continue. -/
def sepThen (s : List Char) (k : List Char → Option α) : Option α :=
  match skipSp s with
  | c :: r => if isSep c then k (skipSp r) else none
  | [] => none

/-- One attempt of pattern 1 at the current position:
`(\d{2,4})\s*[-./]\s*(\d{1,2})\s*[-./]\s*(\d{1,2})`. -/
def matchYMDAt (s : List Char) : Option (List Char × List Char × List Char) :=
  tdThen [4, 3, 2] s fun y r1 =>
    sepThen r1 fun r2 =>
      tdThen [2, 1] r2 fun m r3 =>
        sepThen r3 fun r4 =>
          tdThen [2, 1] r4 fun d _ => some (y, m, d)

/-- Leftmost search for pattern 1 (no lookbehind in the source regex). -/
def searchYMD : List Char → Option (List Char × List Char × List Char)
  | [] => none
  | c :: rest => (matchYMDAt (c :: rest)).orElse (fun _ => searchYMD rest)

/-- One attempt of `(\d{lens})\s*u` at the current position (patterns
`(\d{2,4})\s*년`, `(\d{1,2})\s*월`, `(\d{1,2})\s*일`). -/
def matchNUAt (u : Char) (lens : List Nat) (s : List Char) : Option (List Char) :=
  tdThen lens s fun d r =>
    match skipSp r with
    | c :: _ => if c == u then some d else none
    | [] => none

/-- Leftmost search for a digit group followed by the unit character `u`. -/
def searchNU (u : Char) (lens : List Nat) : List Char → Option (List Char)
  | [] => none
  | c :: rest => (matchNUAt u lens (c :: rest)).orElse (fun _ => searchNU u lens rest)

/-- One attempt of pattern 3 at the current position:
`(\d{1,2})\s*[-./]\s*(\d{1,2})(?!\d)` (the leading `(?<!\d)` is checked by
the caller). -/
def matchMDAt (s : List Char) : Option (List Char × List Char) :=
  tdThen [2, 1] s fun m r1 =>
    sepThen r1 fun r2 =>
      tdThen [2, 1] r2 fun d r3 =>
        match r3 with
        | c :: _ => if c.isDigit then none else some (m, d)
        | [] => some (m, d)

/-- Leftmost search for pattern 3; `prevD` tracks the lookbehind `(?<!\d)`. -/
def searchMDAux : Bool → List Char → Option (List Char × List Char)
  | _, [] => none
  | prevD, c :: rest =>
    (if prevD then none else matchMDAt (c :: rest)).orElse
      (fun _ => searchMDAux c.isDigit rest)

def searchMD (s : List Char) : Option (List Char × List Char) :=
  searchMDAux false s

/-- Line 97-109 helper: split a 3- or 4-digit token into month and day
(`b[0], b[1:]` or `b[:2], b[2:]`). -/
def mdSplit (b : List Char) : List Char × List Char :=
  if b.length == 3 then (b.take 1, b.drop 1) else (b.take 2, b.drop 2)

/-- Lines 63-119: the captured `(Y, M, D)` strings (`None` = not captured). -/
def parseYMD (cleaned : List Char) :
    Option (List Char) × Option (List Char) × Option (List Char) :=
  match (digitRuns cleaned).find? (fun r => r.length == 8) with
  | some r => (some (r.take 4), some ((r.drop 4).take 2), some (r.drop 6))
  | none =>
  match (digitRuns cleaned).find? (fun r => r.length == 6) with
  | some r => (some ('2' :: '0' :: r.take 2), some ((r.drop 2).take 2), some (r.drop 4))
  | none =>
  match searchYMD cleaned with
  | some (y, m, d) => (some y, some m, some d)
  | none =>
  let yk := searchNU '년' [4, 3, 2] cleaned
  let mk := searchNU '월' [2, 1] cleaned
  let dk := searchNU '일' [2, 1] cleaned
  if yk.isSome || mk.isSome || dk.isSome then (yk, mk, dk)
  else
  match searchMD cleaned with
  | some (m, d) => (none, some m, some d)
  | none =>
  match digitRuns cleaned with
  | a :: b :: _ =>
    if a.length == 4 && (b.length == 3 || b.length == 4) then
      (some a, some (mdSplit b).1, some (mdSplit b).2)
    else if a.length == 4 && b.length ≤ 2 then (some a, some b, none)
    else if a.length ≤ 2 && (b.length == 3 || b.length == 4) then
      (none, some (mdSplit b).1, some (mdSplit b).2)
    else if a.length ≤ 2 && b.length ≤ 2 then (none, some a, some b)
    else (none, none, none)
  | [a] =>
    if a.length == 4 then (none, some (a.take 2), some (a.drop 2))
    else if a.length == 3 then (none, some (a.take 1), some (a.drop 1))
    else (none, some a, none)
  | [] => (none, none, none)

/-- Lines 122-125: `norm_year`. -/
def norm_year (curYear : Nat) : Option (List Char) → List Char
  | none => padZ 4 curYear
  | some v =>
    let w := if v.length == 2 then '2' :: '0' :: v else v
    padZ 4 (toNatD w)

/-- Lines 127-129: `norm_md`. -/
def norm_md : Option (List Char) → List Char
  | none => ['0', '0']
  | some v => padZ 2 (toNatD v)

/-- Lines 131-138: assemble `YY/MM/DD` with the out-of-range month/day
correction. -/
def renderDate (curYear : Nat)
    (t : Option (List Char) × Option (List Char) × Option (List Char)) : List Char :=
  let YY := norm_year curYear t.1
  let MM0 := norm_md t.2.1
  let DD0 := norm_md t.2.2
  let mi := toNatD MM0
  let di := toNatD DD0
  let MM := if mi < 1 || 12 < mi then ['0', '0'] else MM0
  let DD := if di < 1 || 31 < di then ['0', '0'] else DD0
  YY ++ '/' :: (MM ++ '/' :: DD)

/-- The total-failure result `f"{cur_year:04d}/00/00"`. -/
def defaultDate (curYear : Nat) : List Char :=
  padZ 4 curYear ++ ('/' :: '0' :: '0' :: '/' :: '0' :: '0' :: [])

/-- Lines 49-140: the date normalizer `fmt_date_uniform`. -/
def fmt_date_uniform (curYear : Nat) (s : List Char) : List Char :=
  if (pyStrip s).isEmpty then defaultDate curYear
  else renderDate curYear (parseYMD (cleanDate s))

/-! ## Document classifier (`classify_image_type`, lines 832-836) -/

/-- The marker phrase `"경찰청 고지"`. -/
def markerPhrase : List Char := "경찰청 고지".toList

/-- The marker with its internal space removed, `"경찰청고지"`. -/
def markerJoined : List Char := "경찰청고지".toList

/-- Lines 832-836: returns `true` (fixed layout) iff the marker phrase occurs
verbatim, or occurs in the text with all whitespace deleted. -/
def classify_image_type (full_text : List Char) : Bool :=
  if full_text.isEmpty then false
  else hasSub full_text markerPhrase || hasSub (removeWs full_text) markerJoined

/-! ## Template acquisition state machine (lines 242-264, 551-653, 723-728)

The session-state fields touched by click handling are collected in
`TState`.  `handle_image_click` is lines 574-587, `apply_coordinates`
lines 633-645, the manual-override commit is lines 622-631, the click
deduplication guard is lines 561-572 (`process_click` below; the display
scaling `int(round(clicked/scale))` is abstracted as a function
`toOrig : Nat → Nat` since the dedup signature is compared on the raw
display coordinates before scaling). -/

structure TState where
  coordinates : List (List Char × List Nat)
  current_field_index : Nat
  temp_coords : List (Nat × Nat)
  click_step : Nat
  last_click_sig : Option (Nat × Nat × Nat × Nat)
deriving DecidableEq

/-- Python dict assignment `coords[field] = v`: replace an existing binding
in place, otherwise append. -/
def setK (l : List (List Char × List Nat)) (k : List Char) (v : List Nat) :
    List (List Char × List Nat) :=
  if l.any (fun p => p.1 == k) then
    l.map (fun p => if p.1 == k then (k, v) else p)
  else l ++ [(k, v)]

/-- Lines 574-587: first click stores the point and advances to step 1; the
second click stores the min/max-normalized pair (the step is left at 1, no
validation is performed here).  The `[]` case is unreachable in the app
(step 1 always follows a first click that stored one point). -/
def handle_image_click (s : TState) (x y : Nat) : TState :=
  if s.click_step == 0 then
    { s with temp_coords := [(x, y)], click_step := 1 }
  else
    match s.temp_coords with
    | (x1, y1) :: _ =>
      { s with temp_coords :=
          [(min x1 x, min y1 y), (max x1 x, max y1 y)] }
    | [] => s

/-- Lines 633-645: commit the two temp points as the field's region, advance
the field cursor, and reset the two-click selection.  No `x1 < x2` /
`y1 < y2` validation is performed on this path. -/
def apply_coordinates (field : List Char) (s : TState) : TState :=
  match s.temp_coords with
  | (x1, y1) :: (x2, y2) :: [] =>
    { s with coordinates := setK s.coordinates field [x1, y1, x2, y2],
             current_field_index := s.current_field_index + 1,
             temp_coords := [],
             click_step := 0 }
  | _ => s

/-- Lines 622-631: the manual-override commit, which does validate
`x1 < x2 and y1 < y2` and otherwise leaves the state unchanged. -/
def manual_apply (field : List Char) (x1 y1 x2 y2 : Nat) (s : TState) : TState :=
  if x1 < x2 && y1 < y2 then
    { s with coordinates := setK s.coordinates field [x1, y1, x2, y2],
             current_field_index := s.current_field_index + 1,
             temp_coords := [],
             click_step := 0 }
  else s

/-- Lines 561-572: deliver a click from the image component.  The click's
signature `(x, y, current_field_index, click_step)` is compared with the
previous one; an identical signature is ignored.  Otherwise the signature is
recorded, the display point is rescaled by `toOrig`, and in-bounds points
are forwarded to `handle_image_click`. -/
def process_click (toOrig : Nat → Nat) (W H : Nat) (s : TState)
    (clicked : Option (Nat × Nat)) : TState :=
  match clicked with
  | none => s
  | some (cx, cy) =>
    let sig := (cx, cy, s.current_field_index, s.click_step)
    if s.last_click_sig == some sig then s
    else
      let s1 := { s with last_click_sig := some sig }
      let ox := toOrig cx
      let oy := toOrig cy
      if ox < W && oy < H then handle_image_click s1 ox oy else s1

/-- Lines 723-728: `reset_template`. -/
def reset_template (s : TState) : TState :=
  { s with coordinates := [], current_field_index := 0,
           temp_coords := [], click_step := 0, last_click_sig := none }

/-- The initial acquisition state (lines 242-264). -/
def initTState : TState :=
  { coordinates := [], current_field_index := 0, temp_coords := [],
    click_step := 0, last_click_sig := none }

/-! ## Fine amount extraction (`extract_fine_amount_from_text`, lines 928-991) -/

/-- One attempt, at the current position, of the reference-code pattern
`\d{2,4}\s*-\s*\d{3,6}\s*-\s*\d{1,4}` (line 942); on success, the remainder
of the string after the match. -/
def matchHC (s : List Char) : Option (List Char) :=
  tdThen [4, 3, 2] s fun _ r1 =>
    match skipSp r1 with
    | '-' :: r2 =>
      tdThen [6, 5, 4, 3] (skipSp r2) fun _ r3 =>
        match skipSp r3 with
        | '-' :: r4 => tdThen [4, 3, 2, 1] (skipSp r4) fun _ r5 => some r5
        | _ => none
    | _ => none

/-- Fuel-driven `re.sub` loop for `strip_hyphen_codes`; every step consumes
at least one character, so `fuel = s.length` never runs out. -/
def subHCAux : Nat → List Char → List Char
  | 0, s => s
  | fuel + 1, s =>
    match s with
    | [] => []
    | c :: rest =>
      match matchHC (c :: rest) with
      | some r => ' ' :: subHCAux fuel r
      | none => c :: subHCAux fuel rest

/-- Lines 940-942: `strip_hyphen_codes`, replacing every (leftmost,
non-overlapping) reference-code match with a single space. -/
def strip_hyphen_codes (s : List Char) : List Char :=
  subHCAux s.length s

/-- The comma-group tail `(?:,\d{3})+` of the amount pattern: all candidate
parses `(consumed, remainder)`, most groups first (regex backtracking order).
Fuel as in `subHCAux`; each group consumes four characters. -/
def commaGroups : Nat → List Char → List (List Char × List Char)
  | 0, _ => []
  | fuel + 1, s =>
    match s with
    | ',' :: r1 =>
      match tryDigits r1 3 with
      | some (d, r2) =>
        ((commaGroups fuel r2).map (fun gr => (',' :: d ++ gr.1, gr.2))) ++
          [(',' :: d, r2)]
      | none => []
    | _ => []

/-- Leading maximal digit run of `s` with its remainder. -/
def leadDigits (s : List Char) : List Char × List Char :=
  (s.takeWhile Char.isDigit, s.dropWhile Char.isDigit)

/-- One attempt, at the current position, of the amount token
`(\d{1,3}(?:,\d{3})+|\d{4,})` followed by `tail` (either `\s*원` or the
lookahead `(?!\d)`); returns the captured token.  The first alternative is
tried with full backtracking before the second; shortening the `\d{4,}` run
can never help (the following character would be a digit, failing both
tails), so the second alternative only tries the full run. -/
def matchAmtTok (tail : List Char → Bool) (s : List Char) : Option (List Char) :=
  let branch1 :=
    tdThen [3, 2, 1] s fun d1 r1 =>
      ((commaGroups r1.length r1).filterMap
        (fun gr => if tail gr.2 then some (d1 ++ gr.1) else none)).head?
  branch1.orElse fun _ =>
    let (run, rest) := leadDigits s
    if 4 ≤ run.length && tail rest then some run else none

/-- The tail `\s*원`. -/
def wonTail (r : List Char) : Bool :=
  match skipSp r with
  | c :: _ => c == '원'
  | [] => false

/-- The tail `(?!\d)`. -/
def noDigitTail (r : List Char) : Bool :=
  match r with
  | c :: _ => !c.isDigit
  | [] => true

/-- Leftmost search for an amount token; `prevD` tracks the lookbehind
`(?<!\d)`. -/
def searchAmtAux (tail : List Char → Bool) : Bool → List Char → Option (List Char)
  | _, [] => none
  | prevD, c :: rest =>
    (if prevD then none else matchAmtTok tail (c :: rest)).orElse
      (fun _ => searchAmtAux tail c.isDigit rest)

/-- Python `re.search(r"(?<!\d)(\d{1,3}(?:,\d{3})+|\d{4,})\s*원", s)` (line 947). -/
def searchWon (s : List Char) : Option (List Char) :=
  searchAmtAux wonTail false s

/-- Python `re.findall(r"(?<!\d)(\d{1,3}(?:,\d{3})+|\d{4,})(?!\d)", s)`
(line 953): all non-overlapping matches, left to right.  Fuel as in
`subHCAux`.  A matched token always ends in a digit, so scanning resumes
with the lookbehind flag set. -/
def findAllNumAux : Nat → Bool → List Char → List (List Char)
  | 0, _, _ => []
  | fuel + 1, prevD, s =>
    match s with
    | [] => []
    | c :: rest =>
      match if prevD then none else matchAmtTok noDigitTail (c :: rest) with
      | some tok => tok :: findAllNumAux fuel true ((c :: rest).drop tok.length)
      | none => findAllNumAux fuel c.isDigit rest

def findAllNum (s : List Char) : List (List Char) :=
  findAllNumAux s.length false s

/-- Python `int(tok.replace(",", ""))`. -/
def tokVal (tok : List Char) : Nat :=
  toNatD (tok.filter (fun c => c != ','))

/-- The plausible-fine test `10_000 <= val <= 500_000`. -/
def fineInRange (v : Nat) : Bool :=
  10000 ≤ v && v ≤ 500000

/-- First token of the list whose value passes the range check (the `for`
loop over `re.findall`, lines 953-956 and 987-990). -/
def firstInRange : List (List Char) → Option Nat
  | [] => none
  | t :: rest =>
    if fineInRange (tokVal t) then some (tokVal t) else firstInRange rest

/-- Lines 944-957: `find_amount_after_keyword`.  The `숫자+원` match is
tried first; if it is absent or out of range the plain numeral scan runs. -/
def find_amount_after_keyword (segment : List Char) : Option Nat :=
  let seg := strip_hyphen_codes segment
  match searchWon seg with
  | some tok =>
    if fineInRange (tokVal tok) then some (tokVal tok)
    else firstInRange (findAllNum seg)
  | none => firstInRange (findAllNum seg)

/-- Lines 959-967 inner loop: scan `lines` for one containing `key`; on a
hit take the text after the keyword, concatenated with the next line, and
accept the first line whose segment yields an amount. -/
def tierKeyScan (key : List Char) : List (List Char) → Option Nat
  | [] => none
  | line :: rest =>
    match afterFirst key line with
    | some tailPart =>
      match find_amount_after_keyword (tailPart ++ (match rest.head? with
        | some nl => ' ' :: nl
        | none => [])) with
      | some amt => some amt
      | none => tierKeyScan key rest
    | none => tierKeyScan key rest

/-- Lines 969-976: the `과태료` tier, skipping lines with the `감경` or
`가산` qualifiers. -/
def tierFineScan : List (List Char) → Option Nat
  | [] => none
  | line :: rest =>
    if hasSub line ("감경".toList) || hasSub line ("가산".toList) then
      tierFineScan rest
    else
      match afterFirst ("과태료".toList) line with
      | some tailPart =>
        match find_amount_after_keyword (tailPart ++ (match rest.head? with
          | some nl => ' ' :: nl
          | none => [])) with
        | some amt => some amt
        | none => tierFineScan rest
      | none => tierFineScan rest

/-- Python `f"{amt:,}원"`. -/
def fmtWon (amt : Nat) : List Char :=
  fmtComma amt ++ ['원']

/-- Lines 928-991: `extract_fine_amount_from_text` (the source's `lines`
and `cleaned` locals are written out in full). -/
def extract_fine_amount_from_text (text : List Char) : List Char :=
  if text.isEmpty then []
  else
    match tierKeyScan ("납부금액".toList) (splitOnNl text) with
    | some amt => fmtWon amt
    | none =>
    match tierKeyScan ("납기내금액".toList) (splitOnNl text) with
    | some amt => fmtWon amt
    | none =>
    match tierFineScan (splitOnNl text) with
    | some amt => fmtWon amt
    | none =>
    match searchWon (strip_hyphen_codes (joinNl (splitOnNl text))) with
    | some tok =>
      if fineInRange (tokVal tok) then fmtWon (tokVal tok)
      else
        match firstInRange (findAllNum (strip_hyphen_codes (joinNl (splitOnNl text)))) with
        | some v => fmtWon v
        | none => []
    | none =>
      match firstInRange (findAllNum (strip_hyphen_codes (joinNl (splitOnNl text)))) with
      | some v => fmtWon v
      | none => []

/-! ## Plate-fragment extraction (`extract_vehicle_number_from_text`,
lines 863-895) -/

/-- Python `re.search(r"(\d{4})(?!\d)", s)`: the leftmost window of exactly
four digits not followed by a fifth. -/
def search4 : List Char → Option (List Char)
  | c1 :: c2 :: c3 :: c4 :: c5 :: rest =>
    if c1.isDigit && c2.isDigit && c3.isDigit && c4.isDigit && !c5.isDigit then
      some [c1, c2, c3, c4]
    else search4 (c2 :: c3 :: c4 :: c5 :: rest)
  | [c1, c2, c3, c4] =>
    if c1.isDigit && c2.isDigit && c3.isDigit && c4.isDigit then
      some [c1, c2, c3, c4]
    else search4 [c2, c3, c4]
  | _ => none

/-- Lines 877-884: the vehicle-keyword tier — on a line containing one of
`차량번호`, `차량`, `대상`, search the line joined with the next one. -/
def tierVehicleKw : List (List Char) → Option (List Char)
  | [] => none
  | line :: rest =>
    if ["차량번호".toList, "차량".toList, "대상".toList].any
        (fun k => hasSub line k) then
      match search4 (removeWs (line ++ (match rest.head? with
        | some nl => ' ' :: nl
        | none => []))) with
      | some g => some g
      | none => tierVehicleKw rest
    else tierVehicleKw rest

/-- Lines 886-892: the fallback tier over lines free of the monetary words
`원`, `금액`, `과태료`, `범칙금`. -/
def tierNonMoney : List (List Char) → Option (List Char)
  | [] => none
  | line :: rest =>
    if ["원".toList, "금액".toList, "과태료".toList, "범칙금".toList].any
        (fun p => hasSub line p) then
      tierNonMoney rest
    else
      match search4 (removeWs line) with
      | some g => some g
      | none => tierNonMoney rest

/-- Lines 863-895: `extract_vehicle_number_from_text`.  The
region-of-interest tier (lines 866-875) calls the external OCR provider on
the stored `차량번호` region; its outcome is the explicit argument
`roiText` (`none` when the branch is skipped or raises). -/
def extract_vehicle_number_from_text (roiText : Option (List Char))
    (text : List Char) : List Char :=
  match roiText.bind (fun rt => search4 (removeWs rt)) with
  | some g => g
  | none =>
    let lines := if text.isEmpty then [] else splitOnNl text
    match tierVehicleKw lines with
    | some g => g
    | none =>
    match tierNonMoney lines with
    | some g => g
    | none =>
    match search4 (removeWs text) with
    | some g => g
    | none => []

/-! ## Region extraction and post-processing (lines 838-847, 1014-1060) -/

/-- A Korean syllable, the regex class `[가-힣]`. -/
def isHangul (c : Char) : Bool :=
  44032 ≤ c.toNat && c.toNat ≤ 55203

/-- One attempt of the plate pattern at the current position:
`\d{2,3}[가-힣]\d{4}` when `sp = false`, `\d{2,3}\s*[가-힣]\s*\d{4}`
when `sp = true`. -/
def matchPlateAt (sp : Bool) (s : List Char) : Option (List Char) :=
  tdThen [3, 2] s fun d1 r1 =>
    match (if sp then skipSp r1 else r1) with
    | c :: r2 =>
      if isHangul c then
        tdThen [4] (if sp then skipSp r2 else r2) fun d2 _ =>
          some (d1 ++ (c :: d2))
      else none
    | [] => none

/-- Leftmost search for the plate pattern. -/
def searchPlate (sp : Bool) : List Char → Option (List Char)
  | [] => none
  | c :: rest => (matchPlateAt sp (c :: rest)).orElse (fun _ => searchPlate sp rest)

/-- Lines 1050-1058 helper: first `[\d,]+` run whose digits parse to an
in-range value (a run with no digit raises `int('')` and is skipped). -/
def fineFromRuns : List (List Char) → Option Nat
  | [] => none
  | n :: rest =>
    let ds := n.filter (fun c => c != ',')
    if ds.isEmpty then fineFromRuns rest
    else if fineInRange (toNatD ds) then some (toNatD ds)
    else fineFromRuns rest

/-- Lines 1032-1060: `post_process_text` — per-field post-processor used on
region OCR output. -/
def post_process_text (curYear : Nat) (field raw_text : List Char) : List Char :=
  if raw_text.isEmpty then []
  else
    let text := pyStrip (collapseWs raw_text)
    if field == "차량번호".toList then
      match searchPlate false text with
      | some m => removeWs m
      | none =>
        match searchPlate true text with
        | some m => removeWs m
        | none => text
    else if field == "일자".toList || field == "납기일".toList then
      fmt_date_uniform curYear text
    else if field == "과태료".toList then
      match fineFromRuns (charRuns (fun c => c.isDigit || c == ',') text) with
      | some v => fmtWon v
      | none => text
    else text

/-- Lines 1014-1030: `extract_text_from_region`.  The crop and the OCR call
on it are the external provider; its outcome for this region is the
argument `ocr` (`Except.error` = any exception inside the `try`, caught and
reported as the empty string; `Except.ok desc` = the provider's text, which
the source then strips and post-processes). -/
def extract_text_from_region (ocr : Except (List Char) (List Char))
    (curYear : Nat) (field : List Char) : List Char :=
  match ocr with
  | Except.ok desc => post_process_text curYear field (pyStrip desc)
  | Except.error _ => []

/-- Lines 838-847: `process_template_based_ocr` — run the per-region
extraction for every field of the template, isolating failures per field.
`provider field coords` is the external crop+OCR outcome for that region. -/
def process_template_based_ocr
    (provider : List Char → List Nat → Except (List Char) (List Char))
    (curYear : Nat) (coords : List (List Char × List Nat)) :
    List (List Char × List Char) :=
  coords.map (fun fc => (fc.1, extract_text_from_region (provider fc.1 fc.2) curYear fc.1))

/-! ## `difflib.SequenceMatcher` ratio (used at line 1085)

The roster strings are far below `difflib`'s autojunk threshold of 200
characters and no junk predicate is passed, so the junk/popular machinery is
inert; `find_longest_match` reduces to the `j2len` dynamic program, and
`ratio` to `2*M/T` where `M` is the total size of the recursively collected
matching blocks.  Float ratios are modelled as exact rationals. -/

/-- Tests `a[i] == b[j]`, false out of range. -/
def chMatch (a b : List Char) (i j : Nat) : Bool :=
  match a.get? i, b.get? j with
  | some x, some y => x == y
  | _, _ => false

/-- One row of the `j2len` dynamic program: the length of the common run
ending at `(i, j)`, given the previous row. -/
def flmRow (a b : List Char) (blo bhi i : Nat) (row : Nat → Nat) (j : Nat) : Nat :=
  if blo ≤ j && j < bhi && chMatch a b i j then
    (if j == 0 then 1 else row (j - 1) + 1)
  else 0

/-- One best-candidate update while scanning row `i` at offset `jo`; ties
keep the earliest `(i, j)` because the update requires a strictly larger
size. -/
def flmUpd (a b : List Char) (blo bhi i : Nat) (row : Nat → Nat)
    (bst : Nat × Nat × Nat) (jo : Nat) : Nat × Nat × Nat :=
  if bst.2.2 < flmRow a b blo bhi i row (blo + jo) then
    (i + 1 - flmRow a b blo bhi i row (blo + jo),
     blo + jo + 1 - flmRow a b blo bhi i row (blo + jo),
     flmRow a b blo bhi i row (blo + jo))
  else bst

/-- Process row `i`: compute the new `j2len` row and fold the best-candidate
update over the `j` range. -/
def flmStep (a b : List Char) (blo bhi i : Nat)
    (st : (Nat → Nat) × (Nat × Nat × Nat)) : (Nat → Nat) × (Nat × Nat × Nat) :=
  (flmRow a b blo bhi i st.1,
   (List.range (bhi - blo)).foldl (flmUpd a b blo bhi i st.1) st.2)

/-- Python `find_longest_match(alo, ahi, blo, bhi)` with no junk. -/
def findLongestMatch (a b : List Char) (alo ahi blo bhi : Nat) :
    Nat × Nat × Nat :=
  ((List.range (ahi - alo)).foldl
    (fun st io => flmStep a b blo bhi (alo + io) st)
    ((fun _ => 0), (alo, blo, 0))).2

/-- Total size of the matching blocks of `get_matching_blocks` on the given
range (the adjacent-block merge step preserves this sum).  Each recursion
level strictly shrinks the range, so `fuel = |a| + |b| + 1` never runs
out. -/
def matchSumAux (a b : List Char) : Nat → Nat → Nat → Nat → Nat → Nat
  | 0, _, _, _, _ => 0
  | fuel + 1, alo, ahi, blo, bhi =>
    match findLongestMatch a b alo ahi blo bhi with
    | (i, j, k) =>
      if k == 0 then 0
      else matchSumAux a b fuel alo i blo j + k +
        matchSumAux a b fuel (i + k) ahi (j + k) bhi

def matchTotal (a b : List Char) : Nat :=
  matchSumAux a b (a.length + b.length + 1) 0 a.length 0 b.length

/-- Python `SequenceMatcher(None, a, b).ratio()` as an exact fraction
`(numerator, denominator)`: `2*M / T`, or `1/1` for two empty strings.
The denominator is always positive. -/
def simScore (a b : List Char) : Nat × Nat :=
  let T := a.length + b.length
  if T == 0 then (1, 1) else (2 * matchTotal a b, T)

/-- Exact comparison `p < q` of two fractions with positive denominators,
by cross-multiplication. -/
def fracLt (p q : Nat × Nat) : Bool :=
  p.1 * q.2 < q.1 * p.2

/-! ## Plate matcher (`match_vehicle_number`, lines 1065-1089)

A roster row is the association list of its columns (a pandas row is
accessed with `row.get(col, '')` and `col in row`); the roster itself is
`Option (List Row)` (`none` = `vehicle_users_df is None`). -/

abbrev Row := List (List Char × List Char)

/-- Python `row.get(key, '')`. -/
def rowGetD (row : Row) (key : List Char) : List Char :=
  match row.find? (fun p => p.1 == key) with
  | some p => p.2
  | none => []

/-- Python `key in row`. -/
def rowHas (row : Row) (key : List Char) : Bool :=
  (row.find? (fun p => p.1 == key)).isSome

/-- Python `l[-n:]`. -/
def lastTake (n : Nat) (l : List Char) : List Char :=
  l.drop (l.length - n)

/-- The last-four-digits suffix key of a plate string
(`digits[-1][-4:]`, accepted only when it has the full four digits). -/
def plateKey (s : List Char) : Option (List Char) :=
  match (digitRuns s).getLast? with
  | none => none
  | some r => if (lastTake 4 r).length == 4 then some (lastTake 4 r) else none

/-- Does the roster row's plate share the suffix `key`?  (Lines 1079-1084:
rows whose plate has no digits are skipped; the comparison `v_last4 ==
last4` forces the full four digits since `key` has length 4.) -/
def rosterSuffixOk (key : List Char) (row : Row) : Bool :=
  match (digitRuns (rowGetD row ("차량번호".toList))).getLast? with
  | some vr => lastTake 4 vr == key
  | none => false

/-- The similarity of the extracted string against a roster row's plate
(line 1085). -/
def simOf (ocr : List Char) (row : Row) : Nat × Nat :=
  simScore ocr (rowGetD row ("차량번호".toList))

/-- One step of the best-candidate loop of lines 1078-1088: a suffix-sharing
row replaces the state only when its similarity is strictly larger
(`sim > best_score`), so ties keep the first-seen row. -/
def matchStep (ocr : List Char) (key : List Char)
    (st : Option Row × (Nat × Nat)) (row : Row) : Option Row × (Nat × Nat) :=
  if rosterSuffixOk key row then
    (if fracLt st.2 (simOf ocr row) then (some row, simOf ocr row) else st)
  else st

/-- The best-candidate fold of lines 1076-1088, starting from
`best = None`, `best_score = 0`. -/
def matchFold (ocr : List Char) (key : List Char) (rows : List Row) :
    Option Row × (Nat × Nat) :=
  rows.foldl (matchStep ocr key) (none, (0, 1))

/-- Lines 1065-1089: `match_vehicle_number`. -/
def match_vehicle_number (roster : Option (List Row)) (ocr : List Char) :
    Option Row :=
  if ocr.isEmpty then none
  else
    match roster with
    | none => none
    | some rows =>
      match plateKey ocr with
      | none => none
      | some key => (matchFold ocr key rows).1

/-! ## Final record assembly (`compile_final_results`, lines 1091-1120) -/

/-- Python `re.sub(r'[^\d]', '', s)`. -/
def onlyDigits (s : List Char) : List Char :=
  s.filter Char.isDigit

/-- Lines 1111-1118: the discounted fine.  An empty fine string takes the
`else 0` arm of the conditional, giving `"0원"`; a nonempty fine with no
digit raises in `int('')` and is caught, giving the empty string.
`int(fine_amount * 0.8)` is modelled exactly as `8 * fine / 10`: the float
product of an integer below `2^50` with `0.8` truncates to the same
value. -/
def discountedFine (fineText : List Char) : List Char :=
  match (if fineText.isEmpty then some 0
         else if (onlyDigits fineText).isEmpty then none
         else some (toNatD (onlyDigits fineText)) : Option Nat) with
  | some n => fmtComma (8 * n / 10) ++ ['원']
  | none => []

/-- Lines 1091-1120: `compile_final_results`, assembling the output record
from the matched roster row and the per-field OCR results. -/
def compile_final_results (matched : Option Row)
    (ocrResults : List (List Char × List Char)) (curYear : Nat) : Row :=
  let base :=
    match matched with
    | some row =>
      let nameField :=
        if rowHas row ("성명".toList) then some ("성명".toList)
        else if rowHas row ("사용자".toList) then some ("사용자".toList)
        else none
      [(("부서".toList), rowGetD row ("부서".toList)),
       (("사용자".toList),
        match nameField with
        | some nf => rowGetD row nf
        | none => []),
       (("차량번호".toList), rowGetD row ("차량번호".toList))]
    | none =>
      [(("부서".toList), "매칭 실패".toList),
       (("사용자".toList), "매칭 실패".toList),
       (("차량번호".toList), rowGetD ocrResults ("차량번호".toList))]
  base ++
    [(("일자".toList), fmt_date_uniform curYear (rowGetD ocrResults ("일자".toList))),
     (("장소".toList), rowGetD ocrResults ("장소".toList)),
     (("내용".toList), rowGetD ocrResults ("내용".toList)),
     (("과태료".toList), rowGetD ocrResults ("과태료".toList)),
     (("납기일".toList), fmt_date_uniform curYear (rowGetD ocrResults ("납기일".toList))),
     (("감경금액".toList), discountedFine (rowGetD ocrResults ("과태료".toList)))]

/-- Well-shaped year capture: absent, or at most four digit characters. -/
def goodY : Option (List Char) → Prop
  | none => True
  | some y => y.length ≤ 4 ∧ ∀ c ∈ y, c.isDigit = true

/-- The two-character value of a month or day segment. -/
def seg2val (a b : Char) : Nat :=
  (a.toNat - 48) * 10 + (b.toNat - 48)

/-- The spec's canonical-output predicate: exactly `YYYY/MM/DD` with a
4-digit year, 2-digit month `00` or `01..12`, and 2-digit day `00` or
`01..31` (stated from the spec's words, to be compared with the renderer's
actual output). -/
def isCanonicalDate (r : List Char) : Bool :=
  match r with
  | [y1, y2, y3, y4, s1, m1, m2, s2, d1, d2] =>
    y1.isDigit && y2.isDigit && y3.isDigit && y4.isDigit &&
    s1 == '/' && s2 == '/' &&
    m1.isDigit && m2.isDigit && d1.isDigit && d2.isDigit &&
    (seg2val m1 m2 == 0 || (1 ≤ seg2val m1 m2 && seg2val m1 m2 ≤ 12)) &&
    (seg2val d1 d2 == 0 || (1 ≤ seg2val d1 d2 && seg2val d1 d2 ≤ 31))
  | _ => false

/-! ## Lemmas: decimal digits and padding -/

theorem digitChar_isDigit {k : Nat} (h : k < 10) : (Nat.digitChar k).isDigit = true := by
  interval_cases k <;> decide

theorem digitChar_val {k : Nat} (h : k < 10) : (Nat.digitChar k).toNat - 48 = k := by
  interval_cases k <;> decide

theorem isDigit_toNat {c : Char} (h : c.isDigit = true) :
    48 ≤ c.toNat ∧ c.toNat ≤ 57 := by
  simp [Char.isDigit] at h
  exact h

theorem natDigitsAux_eq {n : Nat} : ∀ {fuel : Nat}, n < fuel →
    natDigitsAux fuel n = natDigits n := by
  induction n using Nat.strong_induction_on with
  | _ n ih =>
    intro fuel hf
    match fuel, hf with
    | f + 1, hf =>
      show natDigitsAux (f + 1) n = natDigits n
      rw [natDigits]
      by_cases h10 : n < 10
      · simp [natDigitsAux, h10]
      · have hd : n / 10 < n := Nat.div_lt_self (by omega) (by omega)
        simp only [natDigitsAux, if_neg h10]
        rw [ih (n / 10) hd (by omega), ih (n / 10) hd (by omega)]

theorem natDigits_eq (n : Nat) :
    natDigits n = if n < 10 then [Nat.digitChar n]
      else natDigits (n / 10) ++ [Nat.digitChar (n % 10)] := by
  rw [natDigits]
  by_cases h10 : n < 10
  · simp [natDigitsAux, h10]
  · have hd : n / 10 < n := Nat.div_lt_self (by omega) (by omega)
    simp only [natDigitsAux, if_neg h10]
    rw [natDigitsAux_eq (by omega)]

theorem natDigits_ne_nil (n : Nat) : natDigits n ≠ [] := by
  rw [natDigits_eq]
  by_cases h10 : n < 10 <;> simp [h10]

theorem natDigits_all_digit (n : Nat) : ∀ c ∈ natDigits n, c.isDigit = true := by
  induction n using Nat.strong_induction_on with
  | _ n ih =>
    rw [natDigits_eq]
    by_cases h10 : n < 10
    · simp only [if_pos h10, List.mem_singleton]
      rintro c rfl
      exact digitChar_isDigit h10
    · simp only [if_neg h10, List.mem_append, List.mem_singleton]
      rintro c (hc | rfl)
      · exact ih (n / 10) (Nat.div_lt_self (by omega) (by omega)) c hc
      · exact digitChar_isDigit (Nat.mod_lt _ (by omega))

theorem natDigits_len_le {n k : Nat} (hk : 1 ≤ k) (h : n < 10 ^ k) :
    (natDigits n).length ≤ k := by
  induction n using Nat.strong_induction_on generalizing k with
  | _ n ih =>
    rw [natDigits_eq]
    by_cases h10 : n < 10
    · rw [if_pos h10]
      simpa using hk
    · have hk2 : 2 ≤ k := by
        by_contra hlt
        have : k = 1 := by omega
        subst this
        simp [pow_one] at h
        omega
      have hdiv : n / 10 < 10 ^ (k - 1) := by
        rw [Nat.div_lt_iff_lt_mul (by omega)]
        calc n < 10 ^ k := h
          _ = 10 ^ (k - 1) * 10 := by
            rw [← pow_succ]
            congr 1
            omega
      simp only [if_neg h10, List.length_append, List.length_singleton]
      have := ih (n / 10) (Nat.div_lt_self (by omega) (by omega)) (k := k - 1)
        (by omega) hdiv
      omega

theorem foldl_toNatD (l : List Char) :
    ∀ d, l.foldl (fun a c => a * 10 + (c.toNat - 48)) d
      = d * 10 ^ l.length + toNatD l := by
  induction l with
  | nil => intro d; simp [toNatD]
  | cons x xs ih =>
    intro d
    show xs.foldl _ (d * 10 + (x.toNat - 48)) = _
    rw [ih]
    have hx : toNatD (x :: xs)
        = xs.foldl (fun a c => a * 10 + (c.toNat - 48)) (0 * 10 + (x.toNat - 48)) := rfl
    rw [hx, Nat.zero_mul, Nat.zero_add, ih]
    simp [List.length_cons]
    ring

theorem toNatD_cons (c : Char) (l : List Char) :
    toNatD (c :: l) = (c.toNat - 48) * 10 ^ l.length + toNatD l := by
  show l.foldl _ (0 * 10 + (c.toNat - 48)) = _
  rw [Nat.zero_mul, Nat.zero_add, foldl_toNatD]

theorem toNatD_append (l1 l2 : List Char) :
    toNatD (l1 ++ l2) = toNatD l1 * 10 ^ l2.length + toNatD l2 := by
  induction l1 with
  | nil => simp [toNatD]
  | cons c rest ih =>
    rw [List.cons_append, toNatD_cons, toNatD_cons, ih, List.length_append]
    ring

theorem toNatD_nil : toNatD [] = 0 := rfl

theorem toNatD_singleton (c : Char) : toNatD [c] = c.toNat - 48 := by
  rw [toNatD_cons]
  simp [toNatD]

theorem toNatD_natDigits (n : Nat) : toNatD (natDigits n) = n := by
  induction n using Nat.strong_induction_on with
  | _ n ih =>
    rw [natDigits_eq]
    by_cases h10 : n < 10
    · rw [if_pos h10, toNatD_singleton, digitChar_val h10]
    · rw [if_neg h10, toNatD_append, toNatD_singleton,
        digitChar_val (Nat.mod_lt _ (by omega)),
        ih (n / 10) (Nat.div_lt_self (by omega) (by omega))]
      simp
      omega

theorem toNatD_lt_of_digits {l : List Char} (h : ∀ c ∈ l, c.isDigit = true) :
    toNatD l < 10 ^ l.length := by
  induction l with
  | nil => simp [toNatD]
  | cons c rest ih =>
    rw [toNatD_cons]
    have hc := isDigit_toNat (h c (List.mem_cons_self c rest))
    have hrest := ih (fun x hx => h x (List.mem_cons_of_mem c hx))
    have hd : c.toNat - 48 ≤ 9 := by omega
    calc (c.toNat - 48) * 10 ^ rest.length + toNatD rest
        ≤ 9 * 10 ^ rest.length + toNatD rest := by
          have := Nat.mul_le_mul_right (10 ^ rest.length) hd
          omega
      _ < 9 * 10 ^ rest.length + 10 ^ rest.length := by omega
      _ = 10 ^ (rest.length + 1) := by ring
      _ = 10 ^ (c :: rest).length := by simp

theorem toNatD_replicate_zero (m : Nat) (l : List Char) :
    toNatD (List.replicate m '0' ++ l) = toNatD l := by
  induction m with
  | zero => simp
  | succ k ih =>
    rw [List.replicate_succ, List.cons_append, toNatD_cons, ih]
    have h0 : '0'.toNat - 48 = 0 := rfl
    rw [h0, Nat.zero_mul, Nat.zero_add]

theorem padZ_all_digit (k n : Nat) : ∀ c ∈ padZ k n, c.isDigit = true := by
  intro c hc
  rw [padZ, List.mem_append] at hc
  rcases hc with hc | hc
  · rw [List.eq_of_mem_replicate hc]
    decide
  · exact natDigits_all_digit n c hc

theorem padZ_length (k n : Nat) :
    (padZ k n).length = max k (natDigits n).length := by
  rw [padZ, List.length_append, List.length_replicate]
  omega

theorem toNatD_padZ (k n : Nat) : toNatD (padZ k n) = n := by
  rw [padZ, toNatD_replicate_zero, toNatD_natDigits]

theorem padZ_length_eq {k n : Nat} (hk : 1 ≤ k) (h : n < 10 ^ k) :
    (padZ k n).length = k := by
  rw [padZ_length]
  have := natDigits_len_le hk h
  omega

/-! ## Lemmas: regex atoms -/

theorem tryDigits_spec : ∀ {n : Nat} {s d r : List Char},
    tryDigits s n = some (d, r) →
    d.length = n ∧ (∀ c ∈ d, c.isDigit = true) ∧ s = d ++ r := by
  intro n
  induction n with
  | zero =>
    intro s d r h
    simp only [tryDigits, Option.some.injEq, Prod.mk.injEq] at h
    obtain ⟨rfl, rfl⟩ := h
    simp
  | succ k ih =>
    intro s d r h
    match s with
    | [] => simp [tryDigits] at h
    | c :: rest =>
      simp only [tryDigits] at h
      by_cases hc : c.isDigit
      · rw [if_pos hc] at h
        cases htd : tryDigits rest k with
        | none => rw [htd] at h; simp at h
        | some pr =>
          obtain ⟨d', r'⟩ := pr
          rw [htd] at h
          simp only [Option.some.injEq, Prod.mk.injEq] at h
          obtain ⟨rfl, rfl⟩ := h
          obtain ⟨hlen, hdig, happ⟩ := ih htd
          refine ⟨by simp [hlen], ?_, by simp [happ]⟩
          intro x hx
          rcases List.mem_cons.mp hx with rfl | hx
          · exact hc
          · exact hdig x hx
      · rw [if_neg hc] at h
        simp at h

theorem tdThen_spec {α : Type} {lens : List Nat} {s : List Char}
    {k : List Char → List Char → Option α} {x : α}
    (h : tdThen lens s k = some x) :
    ∃ n ∈ lens, ∃ d r, tryDigits s n = some (d, r) ∧ k d r = some x := by
  induction lens with
  | nil => simp [tdThen] at h
  | cons n ns ih =>
    rw [tdThen, List.foldr_cons] at h
    cases htd : tryDigits s n with
    | none =>
      rw [htd] at h
      simp only [Option.none_bind, Option.none_orElse] at h
      exact (ih h).imp fun m hm => ⟨List.mem_cons_of_mem n hm.1, hm.2⟩
    | some pr =>
      obtain ⟨d, r⟩ := pr
      rw [htd] at h
      simp only [Option.some_bind] at h
      cases hk : k d r with
      | none =>
        rw [hk] at h
        exact (ih h).imp fun m hm => ⟨List.mem_cons_of_mem n hm.1, hm.2⟩
      | some y =>
        rw [hk] at h
        have h' : some y = some x := h
        cases h'
        exact ⟨n, List.mem_cons_self n ns, d, r, htd, hk⟩

theorem sepThen_spec {α : Type} {s : List Char} {k : List Char → Option α} {x : α}
    (h : sepThen s k = some x) : ∃ r, k r = some x := by
  rw [sepThen] at h
  cases hsk : skipSp s with
  | nil => rw [hsk] at h; simp at h
  | cons c r =>
    rw [hsk] at h
    cases hc : isSep c with
    | true => simp only [hc, if_true] at h; exact ⟨skipSp r, h⟩
    | false => simp [hc] at h

theorem digitRunsAux_spec : ∀ {s cur : List Char},
    (∀ c ∈ cur, c.isDigit = true) →
    ∀ r ∈ digitRunsAux s cur, r ≠ [] ∧ ∀ c ∈ r, c.isDigit = true := by
  intro s
  induction s with
  | nil =>
    intro cur hcur r hr
    simp only [digitRunsAux] at hr
    by_cases hc : cur.isEmpty
    · rw [if_pos hc] at hr; simp at hr
    · rw [if_neg hc] at hr
      rcases List.mem_singleton.mp hr with rfl
      refine ⟨by simpa [List.isEmpty_iff] using hc, ?_⟩
      intro c hcm
      exact hcur c (List.mem_reverse.mp hcm)
  | cons c rest ih =>
    intro cur hcur r hr
    simp only [digitRunsAux] at hr
    by_cases hd : c.isDigit
    · rw [if_pos hd] at hr
      refine ih ?_ r hr
      intro x hx
      rcases List.mem_cons.mp hx with rfl | hx
      · exact hd
      · exact hcur x hx
    · rw [if_neg hd] at hr
      by_cases he : cur.isEmpty
      · rw [if_pos he] at hr
        exact ih (by simp) r hr
      · rw [if_neg he] at hr
        rcases List.mem_cons.mp hr with rfl | hr
        · refine ⟨by simpa [List.isEmpty_iff] using he, ?_⟩
          intro x hx
          exact hcur x (List.mem_reverse.mp hx)
        · exact ih (by simp) r hr

theorem digitRuns_spec {s : List Char} :
    ∀ r ∈ digitRuns s, r ≠ [] ∧ ∀ c ∈ r, c.isDigit = true :=
  digitRunsAux_spec (by simp)

/-- Shape of a successful pattern-1 match: the year group comes from a
2-, 3- or 4-digit atom. -/
theorem matchYMDAt_spec {s : List Char} {y m d : List Char}
    (h : matchYMDAt s = some (y, m, d)) :
    (y.length = 4 ∨ y.length = 3 ∨ y.length = 2) ∧ ∀ c ∈ y, c.isDigit = true := by
  obtain ⟨n, hn, d0, r0, htd, hk⟩ := tdThen_spec h
  obtain ⟨r1, hk1⟩ := sepThen_spec hk
  obtain ⟨n2, _, d2, r2, htd2, hk2⟩ := tdThen_spec hk1
  obtain ⟨r3, hk3⟩ := sepThen_spec hk2
  obtain ⟨n4, _, d4, r4, htd4, hk4⟩ := tdThen_spec hk3
  simp only [Option.some.injEq, Prod.mk.injEq] at hk4
  obtain ⟨rfl, -, -⟩ := hk4
  obtain ⟨hlen, hdig, -⟩ := tryDigits_spec htd
  simp only [List.mem_cons, List.mem_singleton] at hn
  constructor
  · rcases hn with rfl | rfl | rfl | h'
    · left; exact hlen
    · right; left; exact hlen
    · right; right; exact hlen
    · simp at h'
  · exact hdig

theorem searchYMD_spec : ∀ {s : List Char} {y m d : List Char},
    searchYMD s = some (y, m, d) →
    (y.length = 4 ∨ y.length = 3 ∨ y.length = 2) ∧ ∀ c ∈ y, c.isDigit = true := by
  intro s
  induction s with
  | nil => intro y m d h; simp [searchYMD] at h
  | cons c rest ih =>
    intro y m d h
    rw [searchYMD] at h
    cases hm : matchYMDAt (c :: rest) with
    | none =>
      rw [hm] at h
      simp only [Option.orElse] at h
      exact ih h
    | some t =>
      rw [hm] at h
      simp only [Option.orElse] at h
      cases h
      exact matchYMDAt_spec hm

theorem matchNUAt_spec {u : Char} {lens : List Nat} {s y : List Char}
    (h : matchNUAt u lens s = some y) :
    y.length ∈ lens ∧ ∀ c ∈ y, c.isDigit = true := by
  obtain ⟨n, hn, d0, r0, htd, hk⟩ := tdThen_spec h
  obtain ⟨hlen, hdig, -⟩ := tryDigits_spec htd
  cases hsk : skipSp r0 with
  | nil => rw [hsk] at hk; simp at hk
  | cons c r =>
    rw [hsk] at hk
    cases hc : (c == u) with
    | true =>
      simp only [hc, if_true, Option.some.injEq] at hk
      subst hk
      exact ⟨hlen ▸ hn, hdig⟩
    | false => simp [hc] at hk

theorem searchNU_spec {u : Char} {lens : List Nat} : ∀ {s y : List Char},
    searchNU u lens s = some y →
    y.length ∈ lens ∧ ∀ c ∈ y, c.isDigit = true := by
  intro s
  induction s with
  | nil => intro y h; simp [searchNU] at h
  | cons c rest ih =>
    intro y h
    rw [searchNU] at h
    cases hm : matchNUAt u lens (c :: rest) with
    | none =>
      rw [hm] at h
      simp only [Option.orElse] at h
      exact ih h
    | some t =>
      rw [hm] at h
      simp only [Option.orElse] at h
      cases h
      exact matchNUAt_spec hm

/-! ## Lemmas: the date normalizer -/

/-- Every year string captured by `parseYMD` is at most four digits. -/
theorem parseYMD_year_spec (cleaned : List Char) :
    goodY (parseYMD cleaned).1 := by
  rw [parseYMD]
  split
  · -- eight contiguous digits
    rename_i r h8
    refine ⟨by simp, ?_⟩
    intro c hc
    exact (digitRuns_spec r (List.mem_of_find?_eq_some h8)).2 c (List.mem_of_mem_take hc)
  split
  · -- six contiguous digits
    rename_i r h6
    have hr := digitRuns_spec r (List.mem_of_find?_eq_some h6)
    refine ⟨by simp, ?_⟩
    intro c hc
    rcases List.mem_cons.mp hc with rfl | hc
    · decide
    rcases List.mem_cons.mp hc with rfl | hc
    · decide
    · exact hr.2 c (List.mem_of_mem_take hc)
  split
  · -- separator pattern Y-M-D
    rename_i t y m d hymd
    have hs := searchYMD_spec hymd
    exact ⟨by omega, hs.2⟩
  simp only []
  split
  · -- native year/month/day unit markers
    show goodY (searchNU '년' [4, 3, 2] cleaned)
    cases hnu : searchNU '년' [4, 3, 2] cleaned with
    | none => trivial
    | some yv =>
      have hs := searchNU_spec hnu
      simp only [List.mem_cons, List.mem_singleton] at hs
      refine ⟨?_, hs.2⟩
      rcases hs.1 with h | h | h | h
      · omega
      · omega
      · omega
      · simp at h
  split
  · -- month-day only: no year capture
    trivial
  split
  · -- two or more digit runs
    rename_i a b tail heq
    have hmem : a ∈ digitRuns cleaned := by rw [heq]; exact List.mem_cons_self a _
    have ha := digitRuns_spec a hmem
    split
    · rename_i h1
      simp only [Bool.and_eq_true, beq_iff_eq] at h1
      exact ⟨by omega, ha.2⟩
    split
    · rename_i h2
      simp only [Bool.and_eq_true, beq_iff_eq] at h2
      exact ⟨by omega, ha.2⟩
    split
    · trivial
    split
    · trivial
    · trivial
  · -- a single digit run: no year capture in any arm
    rename_i a heq
    split
    · trivial
    split
    · trivial
    · trivial
  · -- no digit run at all
    trivial

/-- Padding a value below 100 to two digits gives characters decoding to it. -/
theorem padZ_two_decode {m : Nat} (h : m < 100) :
    ∃ a b, padZ 2 m = [a, b] ∧ a.isDigit = true ∧ b.isDigit = true ∧
      seg2val a b = m := by
  by_cases h10 : m < 10
  · refine ⟨'0', Nat.digitChar m, ?_, by decide, digitChar_isDigit h10, ?_⟩
    · rw [padZ, natDigits_eq, if_pos h10]
      rfl
    · have h0 : ('0').toNat = 48 := rfl
      have hv := digitChar_val h10
      simp only [seg2val, h0, hv]
      omega
  · have hq : m / 10 < 10 := by omega
    have hr : m % 10 < 10 := Nat.mod_lt _ (by omega)
    refine ⟨Nat.digitChar (m / 10), Nat.digitChar (m % 10), ?_,
      digitChar_isDigit hq, digitChar_isDigit hr, ?_⟩
    · rw [padZ, natDigits_eq, if_neg h10, natDigits_eq, if_pos hq]
      rfl
    · rw [seg2val, digitChar_val hq, digitChar_val hr]
      omega

/-- A four-digit-year, valid-month, valid-day assembly passes the canonical
predicate. -/
theorem canonical_build {yy mm dd : List Char}
    (hy : yy.length = 4) (hyd : ∀ c ∈ yy, c.isDigit = true)
    (hm : mm = ['0', '0'] ∨ ∃ m, 1 ≤ m ∧ m ≤ 12 ∧ mm = padZ 2 m)
    (hd : dd = ['0', '0'] ∨ ∃ d, 1 ≤ d ∧ d ≤ 31 ∧ dd = padZ 2 d) :
    isCanonicalDate (yy ++ '/' :: (mm ++ '/' :: dd)) = true := by
  obtain ⟨m1, m2, hmm, hm1, hm2, hmv⟩ :
      ∃ m1 m2, mm = [m1, m2] ∧ m1.isDigit = true ∧ m2.isDigit = true ∧
        (seg2val m1 m2 = 0 ∨ (1 ≤ seg2val m1 m2 ∧ seg2val m1 m2 ≤ 12)) := by
    rcases hm with rfl | ⟨m, h1, h12, rfl⟩
    · exact ⟨'0', '0', rfl, by decide, by decide, Or.inl (by decide)⟩
    · obtain ⟨a, b, heq, ha, hb, hv⟩ := padZ_two_decode (show m < 100 by omega)
      exact ⟨a, b, heq, ha, hb, Or.inr ⟨by omega, by omega⟩⟩
  obtain ⟨d1, d2, hdd, hd1, hd2, hdv⟩ :
      ∃ d1 d2, dd = [d1, d2] ∧ d1.isDigit = true ∧ d2.isDigit = true ∧
        (seg2val d1 d2 = 0 ∨ (1 ≤ seg2val d1 d2 ∧ seg2val d1 d2 ≤ 31)) := by
    rcases hd with rfl | ⟨d, h1, h31, rfl⟩
    · exact ⟨'0', '0', rfl, by decide, by decide, Or.inl (by decide)⟩
    · obtain ⟨a, b, heq, ha, hb, hv⟩ := padZ_two_decode (show d < 100 by omega)
      exact ⟨a, b, heq, ha, hb, Or.inr ⟨by omega, by omega⟩⟩
  subst hmm hdd
  match yy, hy with
  | [y1, y2, y3, y4], _ =>
    have hy1 := hyd y1 (by simp)
    have hy2 := hyd y2 (by simp)
    have hy3 := hyd y3 (by simp)
    have hy4 := hyd y4 (by simp)
    show isCanonicalDate [y1, y2, y3, y4, '/', m1, m2, '/', d1, d2] = true
    rw [isCanonicalDate]
    simp only [hy1, hy2, hy3, hy4, hm1, hm2, hd1, hd2, Bool.and_true, Bool.true_and,
      beq_self_eq_true]
    rcases hmv with hv | hv <;> rcases hdv with hv2 | hv2 <;>
      simp [hv, hv2]

theorem norm_year_spec {curYear : Nat} (hcy : curYear < 10000)
    {Y : Option (List Char)} (hY : goodY Y) :
    (norm_year curYear Y).length = 4 ∧
      ∀ c ∈ norm_year curYear Y, c.isDigit = true := by
  cases Y with
  | none =>
    refine ⟨padZ_length_eq (by omega) ?_, padZ_all_digit _ _⟩
    norm_num
    exact hcy
  | some v =>
    obtain ⟨hlen, hdig⟩ := hY
    rw [norm_year]
    by_cases h2 : v.length == 2
    · rw [if_pos h2]
      have hd : ∀ c ∈ ('2' :: '0' :: v), c.isDigit = true := by
        intro c hc
        rcases List.mem_cons.mp hc with rfl | hc
        · decide
        rcases List.mem_cons.mp hc with rfl | hc
        · decide
        · exact hdig c hc
      have hlt : toNatD ('2' :: '0' :: v) < 10 ^ 4 := by
        have := toNatD_lt_of_digits hd
        simp only [List.length_cons] at this
        have h2' : v.length = 2 := by simpa using h2
        rw [h2'] at this
        exact this
      exact ⟨padZ_length_eq (by omega) hlt, padZ_all_digit _ _⟩
    · rw [if_neg h2]
      have hlt : toNatD v < 10 ^ 4 := by
        calc toNatD v < 10 ^ v.length := toNatD_lt_of_digits hdig
          _ ≤ 10 ^ 4 := Nat.pow_le_pow_right (by omega) hlen
      exact ⟨padZ_length_eq (by omega) hlt, padZ_all_digit _ _⟩

theorem toNatD_zero_zero : toNatD ['0', '0'] = 0 := by decide

/-- The month/day segment of `renderDate` after the range correction is
either `"00"` or the two-digit padding of an in-range value. -/
theorem mdSegment_spec (v : Option (List Char)) (bound : Nat) :
    (if toNatD (norm_md v) < 1 || bound < toNatD (norm_md v)
      then ['0', '0'] else norm_md v) = ['0', '0'] ∨
    ∃ m, 1 ≤ m ∧ m ≤ bound ∧
      (if toNatD (norm_md v) < 1 || bound < toNatD (norm_md v)
        then ['0', '0'] else norm_md v) = padZ 2 m := by
  by_cases hc : toNatD (norm_md v) < 1 || bound < toNatD (norm_md v)
  · rw [if_pos hc]
    exact Or.inl rfl
  · rw [if_neg hc]
    simp only [Bool.or_eq_true, decide_eq_true_eq, not_or, not_lt] at hc
    cases v with
    | none =>
      exfalso
      rw [norm_md, toNatD_zero_zero] at hc
      omega
    | some w =>
      right
      refine ⟨toNatD (norm_md (some w)), by omega, by omega, ?_⟩
      show norm_md (some w) = _
      rw [norm_md, toNatD_padZ]

theorem renderDate_canonical {curYear : Nat} (hcy : curYear < 10000)
    (t : Option (List Char) × Option (List Char) × Option (List Char))
    (ht : goodY t.1) :
    isCanonicalDate (renderDate curYear t) = true := by
  obtain ⟨Y, M, D⟩ := t
  obtain ⟨hylen, hydig⟩ := norm_year_spec hcy ht
  exact canonical_build hylen hydig (mdSegment_spec M 12) (mdSegment_spec D 31)

/-- C1: for every input string, `fmt_date_uniform` returns a canonical
`YYYY/MM/DD` string (4-digit year, 2-digit month `00` or `01..12`, 2-digit
day `00` or `01..31`); when no year is captured the year defaults to the
current calendar year, and on total parse failure the result is
`<currentYear>/00/00`. -/
theorem claim_C1 (curYear : Nat) (hcy : curYear < 10000) :
    (∀ s, isCanonicalDate (fmt_date_uniform curYear s) = true)
    ∧ (∀ s, (parseYMD (cleanDate s)).1 = none →
        (fmt_date_uniform curYear s).take 4 = padZ 4 curYear)
    ∧ (∀ s, parseYMD (cleanDate s) = (none, none, none) →
        fmt_date_uniform curYear s = defaultDate curYear) := by
  have hpad : (padZ 4 curYear).length = 4 := by
    refine padZ_length_eq (by omega) ?_
    norm_num
    exact hcy
  have hdef : isCanonicalDate (defaultDate curYear) = true := by
    have : defaultDate curYear
        = padZ 4 curYear ++ '/' :: (['0', '0'] ++ '/' :: ['0', '0']) := rfl
    rw [this]
    exact canonical_build hpad (padZ_all_digit _ _) (Or.inl rfl) (Or.inl rfl)
  refine ⟨?_, ?_, ?_⟩
  · intro s
    rw [fmt_date_uniform]
    by_cases he : (pyStrip s).isEmpty
    · rw [if_pos he]
      exact hdef
    · rw [if_neg he]
      exact renderDate_canonical hcy _ (parseYMD_year_spec _)
  · intro s hY
    rw [fmt_date_uniform]
    by_cases he : (pyStrip s).isEmpty
    · rw [if_pos he, defaultDate]
      exact List.take_left' hpad
    · rw [if_neg he]
      rcases hp : parseYMD (cleanDate s) with ⟨Y, M, D⟩
      rw [hp] at hY
      simp only at hY
      subst hY
      show (norm_year curYear none ++ _).take 4 = _
      rw [norm_year]
      exact List.take_left' hpad
  · intro s hp
    rw [fmt_date_uniform, hp]
    by_cases he : (pyStrip s).isEmpty
    · rw [if_pos he]
    · rw [if_neg he]
      rfl

/-- Witness for C1 at concrete inputs. -/
theorem claim_C1_witness :
    (2025 < 10000
      ∧ isCanonicalDate (fmt_date_uniform 2025 ("13월 99일".toList)) = true)
    ∧ fmt_date_uniform 2025 ("문서".toList) = defaultDate 2025 :=
  ⟨⟨by norm_num, (claim_C1 2025 (by norm_num)).1 _⟩,
    (claim_C1 2025 (by norm_num)).2.2 _ (by decide)⟩

set_option maxRecDepth 10000

/-- C9: the spec's concrete date vectors: `""` gives
`<currentYear>/00/00`, `"2024.3.5"`, `"24-3-5"`, `"20240305"` and
`"240305"` give `2024/03/05`, and `"03-05"` gives
`<currentYear>/03/05`. -/
theorem claim_C9 (y : Nat) :
    fmt_date_uniform y [] = defaultDate y
    ∧ fmt_date_uniform y ("2024.3.5".toList) = "2024/03/05".toList
    ∧ fmt_date_uniform y ("24-3-5".toList) = "2024/03/05".toList
    ∧ fmt_date_uniform y ("03-05".toList)
        = padZ 4 y ++ ('/' :: '0' :: '3' :: '/' :: '0' :: '5' :: [])
    ∧ fmt_date_uniform y ("20240305".toList) = "2024/03/05".toList
    ∧ fmt_date_uniform y ("240305".toList) = "2024/03/05".toList :=
  ⟨rfl, rfl, rfl, rfl, rfl, rfl⟩

/-- C6: `classify_image_type` returns the fixed-layout class iff the marker
phrase occurs verbatim, or occurs once all whitespace is removed; otherwise
the page is generic.  (The function is a pure Boolean predicate of the
text.) -/
theorem claim_C6 (text : List Char) :
    classify_image_type text
      = (hasSub text markerPhrase
          || hasSub (removeWs text) (removeWs markerPhrase)) := by
  have hmj : markerJoined = removeWs markerPhrase := by decide
  rw [classify_image_type]
  by_cases he : text.isEmpty
  · rw [if_pos he]
    have : text = [] := by simpa [List.isEmpty_iff] using he
    subst this
    decide
  · rw [if_neg he, hmj]

/-- Click handling never touches the stored click signature. -/
theorem handle_image_click_sig (s : TState) (x y : Nat) :
    (handle_image_click s x y).last_click_sig = s.last_click_sig := by
  rw [handle_image_click]
  by_cases h : s.click_step == 0
  · rw [if_pos h]
  · rw [if_neg h]
    cases s.temp_coords with
    | nil => rfl
    | cons p rest => obtain ⟨px, py⟩ := p; rfl

/-- C7: click handling is idempotent per signature — a click whose
signature `(x, y, current_field_index, click_step)` equals the stored
`last_click_sig` causes no state transition, and after any delivered click
the stored signature is that click's signature (so an immediate identical
redelivery is ignored). -/
theorem claim_C7 (toOrig : Nat → Nat) (W H : Nat) (s : TState) (cx cy : Nat) :
    (s.last_click_sig = some (cx, cy, s.current_field_index, s.click_step) →
      process_click toOrig W H s (some (cx, cy)) = s)
    ∧ (process_click toOrig W H s (some (cx, cy))).last_click_sig
        = some (cx, cy, s.current_field_index, s.click_step) := by
  constructor
  · intro h
    rw [process_click]
    simp only [h, beq_self_eq_true, if_true]
  · rw [process_click]
    by_cases h : s.last_click_sig == some (cx, cy, s.current_field_index, s.click_step)
    · simp only [h, if_true]
      exact eq_of_beq h
    · simp only [Bool.not_eq_true] at h
      simp only [h, Bool.false_eq_true, if_false]
      by_cases hb : toOrig cx < W && toOrig cy < H
      · simp only [hb, if_true, handle_image_click_sig]
      · simp only [hb, Bool.false_eq_true, if_false]

/-- Witness for C7: redelivering the recorded click signature leaves the
state unchanged. -/
theorem claim_C7_witness :
    process_click id 100 100
        { coordinates := [], current_field_index := 0, temp_coords := [],
          click_step := 0, last_click_sig := some (5, 7, 0, 0) }
        (some (5, 7))
      = { coordinates := [], current_field_index := 0, temp_coords := [],
          click_step := 0, last_click_sig := some (5, 7, 0, 0) } :=
  (claim_C7 id 100 100 _ 5 7).1 rfl

/-- Counterexample to C2 as stated: from the initial state, clicks
`(50,50)` then `(50,100)` — a degenerate pair with equal x — are
normalized, stored (a state transition), and then committed by
`apply_coordinates` as the zero-width region `[50,50,50,100]`, even though
`50 < 50` fails; the claimed rejection does not happen on the click
path. -/
theorem claim_C2_counterexample :
    (apply_coordinates ("차량번호".toList)
        (handle_image_click (handle_image_click initTState 50 50) 50 100)).coordinates
      = [("차량번호".toList, [50, 50, 50, 100])]
    ∧ handle_image_click (handle_image_click initTState 50 50) 50 100
        ≠ handle_image_click initTState 50 50
    ∧ ¬(50 < 50) := by
  refine ⟨by decide, by decide, by omega⟩

/-- C2 (amended): the second click is min/max-normalized with the first, so
reversed click order yields the same committed Region, and clicks `(50,50)`
then `(200,100)` commit `[50,50,200,100]`; the click path performs no
`x1<x2`/`y1<y2` validation (a degenerate pair is committed as a zero-extent
Region, the step staying at `AwaitingBottomRight` after the second click);
only the manual-override commit validates and rejects a non-increasing pair
with no state change. -/
theorem claim_C2_amended :
    (∀ (s : TState) (x1 y1 x2 y2 : Nat) (field : List Char),
      s.click_step = 0 →
      (handle_image_click (handle_image_click s x1 y1) x2 y2).temp_coords
          = [(min x1 x2, min y1 y2), (max x1 x2, max y1 y2)]
      ∧ (handle_image_click (handle_image_click s x1 y1) x2 y2).click_step = 1
      ∧ (apply_coordinates field
            (handle_image_click (handle_image_click s x1 y1) x2 y2)).coordinates
          = setK s.coordinates field [min x1 x2, min y1 y2, max x1 x2, max y1 y2]
      ∧ handle_image_click (handle_image_click s x2 y2) x1 y1
          = handle_image_click (handle_image_click s x1 y1) x2 y2)
    ∧ (∀ (s : TState) (x1 y1 x2 y2 : Nat) (field : List Char),
        ¬(x1 < x2 ∧ y1 < y2) → manual_apply field x1 y1 x2 y2 s = s)
    ∧ (apply_coordinates ("차량번호".toList)
        (handle_image_click (handle_image_click initTState 50 50) 200 100)).coordinates
      = [("차량번호".toList, [50, 50, 200, 100])] := by
  refine ⟨?_, ?_, by decide⟩
  · intro s x1 y1 x2 y2 field h0
    have h1 : handle_image_click s x1 y1
        = { s with temp_coords := [(x1, y1)], click_step := 1 } := by
      rw [handle_image_click]
      simp [h0]
    have h2 : handle_image_click (handle_image_click s x1 y1) x2 y2
        = { s with temp_coords := [(min x1 x2, min y1 y2), (max x1 x2, max y1 y2)],
                   click_step := 1 } := by
      rw [h1, handle_image_click]
      simp
    refine ⟨by rw [h2], by rw [h2], ?_, ?_⟩
    · rw [h2, apply_coordinates]
    · have h1' : handle_image_click s x2 y2
          = { s with temp_coords := [(x2, y2)], click_step := 1 } := by
        rw [handle_image_click]
        simp [h0]
      rw [h1', handle_image_click, h2]
      simp [Nat.min_comm, Nat.max_comm]
  · intro s x1 y1 x2 y2 field h
    rw [manual_apply]
    have : (decide (x1 < x2) && decide (y1 < y2)) = false := by
      rcases Nat.lt_or_ge x1 x2 with hx | hx
      · rcases Nat.lt_or_ge y1 y2 with hy | hy
        · exact absurd ⟨hx, hy⟩ h
        · simp [Nat.not_lt.mpr hy]
      · simp [Nat.not_lt.mpr hx]
    rw [this]
    simp

/-- Witness for C2 (amended): reversed clicks give the same state, and a
degenerate manual override is rejected without a transition. -/
theorem claim_C2_amended_witness :
    handle_image_click (handle_image_click initTState 200 100) 50 50
      = handle_image_click (handle_image_click initTState 50 50) 200 100
    ∧ manual_apply ("차량번호".toList) 50 50 50 100 initTState = initTState :=
  ⟨(claim_C2_amended.1 initTState 50 50 200 100 ("차량번호".toList) rfl).2.2.2,
   claim_C2_amended.2.1 initTState 50 50 50 100 ("차량번호".toList) (by omega)⟩

/-- C8: per-field failure isolation in region extraction — the output has
one entry per template field; a field whose crop/OCR raises yields the
empty string, while every field whose provider call succeeds yields the
post-processed provider text, regardless of other fields' failures. -/
theorem claim_C8 (provider : List Char → List Nat → Except (List Char) (List Char))
    (curYear : Nat) (coords : List (List Char × List Nat)) :
    (process_template_based_ocr provider curYear coords).length = coords.length
    ∧ (∀ (i : Nat) f c e, coords[i]? = some (f, c) → provider f c = Except.error e →
        (process_template_based_ocr provider curYear coords)[i]? = some (f, []))
    ∧ (∀ (i : Nat) f c raw, coords[i]? = some (f, c) → provider f c = Except.ok raw →
        (process_template_based_ocr provider curYear coords)[i]?
          = some (f, post_process_text curYear f (pyStrip raw))) := by
  refine ⟨by simp [process_template_based_ocr], ?_, ?_⟩
  · intro i f c e hi hp
    rw [process_template_based_ocr, List.getElem?_map, hi]
    simp [extract_text_from_region, hp]
  · intro i f c raw hi hp
    rw [process_template_based_ocr, List.getElem?_map, hi]
    simp [extract_text_from_region, hp]

/-- Witness for C8: with a provider that fails exactly on the `일자`
region, that field is empty and the other field still extracts. -/
theorem claim_C8_witness :
    (process_template_based_ocr
        (fun f _ => if f == ("일자".toList) then Except.error ("오류".toList)
          else Except.ok ("12가3456".toList))
        2025
        [(("차량번호".toList), [0, 0, 10, 10]), (("일자".toList), [0, 10, 10, 20])])[1]?
      = some (("일자".toList), [])
    ∧ (process_template_based_ocr
        (fun f _ => if f == ("일자".toList) then Except.error ("오류".toList)
          else Except.ok ("12가3456".toList))
        2025
        [(("차량번호".toList), [0, 0, 10, 10]), (("일자".toList), [0, 10, 10, 20])])[0]?
      = some (("차량번호".toList), "12가3456".toList) := by
  constructor
  · exact (claim_C8 _ 2025 _).2.1 1 _ [0, 10, 10, 20] ("오류".toList) (by rfl) (by rfl)
  · have h := (claim_C8 (fun f _ => if f == ("일자".toList) then Except.error ("오류".toList)
          else Except.ok ("12가3456".toList)) 2025
        [(("차량번호".toList), [0, 0, 10, 10]), (("일자".toList), [0, 10, 10, 20])]).2.2
        0 ("차량번호".toList) [0, 0, 10, 10] ("12가3456".toList) (by rfl) (by rfl)
    rw [h]
    decide

/-! ## Lemmas: plate-fragment shape (C10) -/

theorem search4_spec : ∀ (s g : List Char), search4 s = some g →
    g.length = 4 ∧ ∀ c ∈ g, c.isDigit = true := by
  intro s
  induction s using search4.induct with
  | case1 c1 c2 c3 c4 c5 rest hc =>
    intro g h
    rw [search4, if_pos hc] at h
    simp only [Option.some.injEq] at h
    subst h
    simp only [Bool.and_eq_true] at hc
    refine ⟨rfl, ?_⟩
    intro c hcmem
    rcases List.mem_cons.mp hcmem with rfl | hcmem
    · exact hc.1.1.1.1
    rcases List.mem_cons.mp hcmem with rfl | hcmem
    · exact hc.1.1.1.2
    rcases List.mem_cons.mp hcmem with rfl | hcmem
    · exact hc.1.1.2
    rcases List.mem_cons.mp hcmem with rfl | hcmem
    · exact hc.1.2
    · simp at hcmem
  | case2 c1 c2 c3 c4 c5 rest hc ih =>
    intro g h
    rw [search4, if_neg hc] at h
    exact ih g h
  | case3 c1 c2 c3 c4 hc =>
    intro g h
    rw [search4, if_pos hc] at h
    simp only [Option.some.injEq] at h
    subst h
    simp only [Bool.and_eq_true] at hc
    refine ⟨rfl, ?_⟩
    intro c hcmem
    rcases List.mem_cons.mp hcmem with rfl | hcmem
    · exact hc.1.1.1
    rcases List.mem_cons.mp hcmem with rfl | hcmem
    · exact hc.1.1.2
    rcases List.mem_cons.mp hcmem with rfl | hcmem
    · exact hc.1.2
    rcases List.mem_cons.mp hcmem with rfl | hcmem
    · exact hc.2
    · simp at hcmem
  | case4 c1 c2 c3 c4 hc ih =>
    intro g h
    rw [search4, if_neg hc] at h
    exact ih g h
  | case5 t hne5 hne4 =>
    intro g h
    match t, hne5, hne4 with
    | [], _, _ => simp [search4] at h
    | [c1], _, _ => simp [search4] at h
    | [c1, c2], _, _ => simp [search4] at h
    | [c1, c2, c3], _, _ => simp [search4] at h
    | [c1, c2, c3, c4], _, hne4 => exact (hne4 c1 c2 c3 c4 rfl).elim
    | c1 :: c2 :: c3 :: c4 :: c5 :: rest, hne5, _ =>
      exact (hne5 c1 c2 c3 c4 c5 rest rfl).elim

theorem tierVehicleKw_spec : ∀ {lines : List (List Char)} {g : List Char},
    tierVehicleKw lines = some g → ∃ s, search4 s = some g := by
  intro lines
  induction lines with
  | nil => intro g h; simp [tierVehicleKw] at h
  | cons line rest ih =>
    intro g h
    rw [tierVehicleKw] at h
    split at h
    · split at h
      · rename_i hs
        cases h
        exact ⟨_, hs⟩
      · exact ih h
    · exact ih h

theorem tierNonMoney_spec : ∀ {lines : List (List Char)} {g : List Char},
    tierNonMoney lines = some g → ∃ s, search4 s = some g := by
  intro lines
  induction lines with
  | nil => intro g h; simp [tierNonMoney] at h
  | cons line rest ih =>
    intro g h
    rw [tierNonMoney] at h
    split at h
    · exact ih h
    · split at h
      · rename_i hs
        cases h
        exact ⟨_, hs⟩
      · exact ih h

/-- C10: on every path the keyword-strategy plate extractor returns either
the empty string or exactly four digit characters (a trailing 4-digit run
of some whitespace-stripped search text), never a full plate number. -/
theorem claim_C10 (roiText : Option (List Char)) (text : List Char) :
    extract_vehicle_number_from_text roiText text = []
    ∨ ((extract_vehicle_number_from_text roiText text).length = 4
        ∧ ∀ c ∈ extract_vehicle_number_from_text roiText text, c.isDigit = true) := by
  rw [extract_vehicle_number_from_text]
  cases hroi : roiText.bind (fun rt => search4 (removeWs rt)) with
  | some g =>
    right
    cases roiText with
    | none => simp at hroi
    | some rt =>
      simp only [Option.some_bind] at hroi
      exact search4_spec _ _ hroi
  | none =>
  simp only []
  cases hA : tierVehicleKw (if text.isEmpty then [] else splitOnNl text) with
  | some g =>
    right
    obtain ⟨s, hs⟩ := tierVehicleKw_spec hA
    exact search4_spec _ _ hs
  | none =>
  cases hB : tierNonMoney (if text.isEmpty then [] else splitOnNl text) with
  | some g =>
    right
    obtain ⟨s, hs⟩ := tierNonMoney_spec hB
    exact search4_spec _ _ hs
  | none =>
  cases hC : search4 (removeWs text) with
  | some g =>
    right
    exact search4_spec _ _ hC
  | none =>
    left
    rfl

/-! ## Lemmas: fine-amount range (C4) -/

theorem firstInRange_spec : ∀ {l : List (List Char)} {v : Nat},
    firstInRange l = some v → fineInRange v = true := by
  intro l
  induction l with
  | nil => intro v h; simp [firstInRange] at h
  | cons t rest ih =>
    intro v h
    rw [firstInRange] at h
    by_cases hr : fineInRange (tokVal t) = true
    · rw [if_pos hr] at h
      cases h
      exact hr
    · rw [if_neg hr] at h
      exact ih h

theorem find_amount_after_keyword_spec {seg : List Char} {v : Nat}
    (h : find_amount_after_keyword seg = some v) : fineInRange v = true := by
  rw [find_amount_after_keyword] at h
  split at h
  · split at h
    · rename_i hr
      cases h
      exact hr
    · exact firstInRange_spec h
  · exact firstInRange_spec h

theorem tierKeyScan_spec {key : List Char} : ∀ {lines : List (List Char)} {v : Nat},
    tierKeyScan key lines = some v → fineInRange v = true := by
  intro lines
  induction lines with
  | nil => intro v h; simp [tierKeyScan] at h
  | cons line rest ih =>
    intro v h
    rw [tierKeyScan] at h
    split at h
    · split at h
      · rename_i hf
        cases h
        exact find_amount_after_keyword_spec hf
      · exact ih h
    · exact ih h

theorem tierFineScan_spec : ∀ {lines : List (List Char)} {v : Nat},
    tierFineScan lines = some v → fineInRange v = true := by
  intro lines
  induction lines with
  | nil => intro v h; simp [tierFineScan] at h
  | cons line rest ih =>
    intro v h
    rw [tierFineScan] at h
    split at h
    · exact ih h
    · split at h
      · split at h
        · rename_i hf
          cases h
          exact find_amount_after_keyword_spec hf
        · exact ih h
      · exact ih h

/-- C4: every tier of the fine cascade accepts a candidate only inside the
inclusive range `[10000, 500000]` — the extractor's output is either empty
or a formatted amount in that range — and hyphen-joined reference codes are
stripped before the numeric search, so the text `"2025-063822-00"` yields
no fine at all. -/
theorem claim_C4 :
    (∀ text, extract_fine_amount_from_text text = []
      ∨ ∃ v, 10000 ≤ v ∧ v ≤ 500000
          ∧ extract_fine_amount_from_text text = fmtWon v)
    ∧ extract_fine_amount_from_text ("2025-063822-00".toList) = [] := by
  have hrange : ∀ {v : Nat}, fineInRange v = true → 10000 ≤ v ∧ v ≤ 500000 := by
    intro v hv
    simpa [fineInRange] using hv
  constructor
  · intro text
    rw [extract_fine_amount_from_text]
    by_cases he : text.isEmpty
    · rw [if_pos he]
      exact Or.inl rfl
    rw [if_neg he]
    split
    · rename_i amt h1
      exact Or.inr ⟨amt, (hrange (tierKeyScan_spec h1)).1,
        (hrange (tierKeyScan_spec h1)).2, rfl⟩
    split
    · rename_i amt h2
      exact Or.inr ⟨amt, (hrange (tierKeyScan_spec h2)).1,
        (hrange (tierKeyScan_spec h2)).2, rfl⟩
    split
    · rename_i amt h3
      exact Or.inr ⟨amt, (hrange (tierFineScan_spec h3)).1,
        (hrange (tierFineScan_spec h3)).2, rfl⟩
    split
    · rename_i tok h4
      split
      · rename_i hr
        exact Or.inr ⟨tokVal tok, (hrange hr).1, (hrange hr).2, rfl⟩
      · split
        · rename_i v h5
          exact Or.inr ⟨v, (hrange (firstInRange_spec h5)).1,
            (hrange (firstInRange_spec h5)).2, rfl⟩
        · exact Or.inl rfl
    · split
      · rename_i v h5
        exact Or.inr ⟨v, (hrange (firstInRange_spec h5)).1,
          (hrange (firstInRange_spec h5)).2, rfl⟩
      · exact Or.inl rfl
  · decide

/-- The `감경금액` column of the compiled record is the discounted fine of
the record's `과태료` value, whatever the match outcome. -/
theorem compile_discount (matched : Option Row)
    (ocr : List (List Char × List Char)) (y : Nat) :
    rowGetD (compile_final_results matched ocr y) ("감경금액".toList)
      = discountedFine (rowGetD ocr ("과태료".toList)) := by
  cases matched with
  | none => rfl
  | some row => rfl

/-- Counterexample to C5 as stated: when the fine is unparseable because
extraction failed (`과태료` is the empty string), the compiled
`감경금액` is `"0원"` — zero, not the empty string. -/
theorem claim_C5_counterexample :
    rowGetD (compile_final_results none [] 2025) ("과태료".toList) = []
    ∧ rowGetD (compile_final_results none [] 2025) ("감경금액".toList) = "0원".toList
    ∧ "0원".toList ≠ ([] : List Char) := by
  refine ⟨by decide, by decide, by decide⟩

/-- C5 (amended): `DiscountedFine` is `floor(Fine × 0.8)` formatted with
thousands separators and the currency suffix whenever `Fine` contains a
digit; it is `"0원"` when `Fine` is the empty string, and the empty string
only when `Fine` is nonempty but digit-free.  On the spec's vector the
extractor selects 50,000 (the tier-2 line carries the `감경` qualifier, so
the plain `숫자+원` tier fires first on `50,000원`) and the discounted fine
is 40,000. -/
theorem claim_C5_amended :
    (∀ (matched : Option Row) (ocr : List (List Char × List Char)) (y : Nat),
      (rowGetD ocr ("과태료".toList) = [] →
        rowGetD (compile_final_results matched ocr y) ("감경금액".toList)
          = "0원".toList)
      ∧ (rowGetD ocr ("과태료".toList) ≠ [] →
          onlyDigits (rowGetD ocr ("과태료".toList)) = [] →
          rowGetD (compile_final_results matched ocr y) ("감경금액".toList) = [])
      ∧ (∀ n, onlyDigits (rowGetD ocr ("과태료".toList)) ≠ [] →
          toNatD (onlyDigits (rowGetD ocr ("과태료".toList))) = n →
          rowGetD (compile_final_results matched ocr y) ("감경금액".toList)
            = fmtComma (8 * n / 10) ++ ['원']))
    ∧ extract_fine_amount_from_text ("과태료 50,000원 (감경 10,000원)".toList)
        = "50,000원".toList
    ∧ rowGetD (compile_final_results none [(("과태료".toList), "50,000원".toList)] 2025)
        ("감경금액".toList) = "40,000원".toList := by
  refine ⟨?_, by decide, by decide⟩
  intro matched ocr y
  refine ⟨?_, ?_, ?_⟩
  · intro h
    rw [compile_discount, h]
    rfl
  · intro hne hds
    rw [compile_discount, discountedFine]
    have h1 : (rowGetD ocr ("과태료".toList)).isEmpty = false := by
      simpa [List.isEmpty_iff] using hne
    have h2 : (onlyDigits (rowGetD ocr ("과태료".toList))).isEmpty = true := by
      simpa [List.isEmpty_iff] using hds
    rw [h1, h2]
    rfl
  · intro n hds hn
    have h2 : (onlyDigits (rowGetD ocr ("과태료".toList))).isEmpty = false := by
      simpa [List.isEmpty_iff] using hds
    have hne : (rowGetD ocr ("과태료".toList)).isEmpty = false := by
      rcases hemp : rowGetD ocr ("과태료".toList) with _ | ⟨c, t⟩
      · rw [hemp] at h2
        simp [onlyDigits] at h2
      · rfl
    rw [compile_discount, discountedFine, hne, h2, hn]
    rfl

/-- Witness for C5 (amended): a nonempty digit-free fine gives an empty
discounted fine, and a parsed fine of 50,000 gives 40,000. -/
theorem claim_C5_amended_witness :
    rowGetD (compile_final_results none [(("과태료".toList), "미상".toList)] 2025)
        ("감경금액".toList) = []
    ∧ rowGetD (compile_final_results none [(("과태료".toList), "50,000원".toList)] 2025)
        ("감경금액".toList) = fmtComma (8 * 50000 / 10) ++ ['원'] :=
  ⟨(claim_C5_amended.1 none [(("과태료".toList), "미상".toList)] 2025).2.1
      (by decide) (by decide),
   (claim_C5_amended.1 none [(("과태료".toList), "50,000원".toList)] 2025).2.2
      50000 (by decide) (by decide)⟩

/-! ## Lemmas: exact fraction comparison (C3) -/

theorem fracLt_iff (p q : Nat × Nat) :
    fracLt p q = true ↔ p.1 * q.2 < q.1 * p.2 := by
  simp [fracLt]

theorem fracLt_irrefl (p : Nat × Nat) : fracLt p p = false := by
  simp [fracLt]

theorem fracLt_asymm {p q : Nat × Nat} (h : fracLt p q = true) :
    fracLt q p = false := by
  rw [fracLt_iff] at h
  simp only [fracLt, decide_eq_false_iff_not]
  omega

theorem fracLt_trans {p q r : Nat × Nat} (hp : 0 < p.2) (hq : 0 < q.2)
    (hr : 0 < r.2) (h1 : fracLt p q = true) (h2 : fracLt q r = true) :
    fracLt p r = true := by
  rw [fracLt_iff] at h1 h2 ⊢
  have c1 : p.1 * r.2 * q.2 < q.1 * p.2 * r.2 := by
    calc p.1 * r.2 * q.2 = p.1 * q.2 * r.2 := by ring
      _ < q.1 * p.2 * r.2 := (Nat.mul_lt_mul_right hr).mpr h1
  have c2 : q.1 * p.2 * r.2 < r.1 * p.2 * q.2 := by
    calc q.1 * p.2 * r.2 = q.1 * r.2 * p.2 := by ring
      _ < r.1 * q.2 * p.2 := (Nat.mul_lt_mul_right hp).mpr h2
      _ = r.1 * p.2 * q.2 := by ring
  have h3 : p.1 * r.2 * q.2 < r.1 * p.2 * q.2 := lt_trans c1 c2
  exact (Nat.mul_lt_mul_right hq).mp h3

theorem fracLt_of_nlt_of_lt {b x r : Nat × Nat} (hb : 0 < b.2) (hx : 0 < x.2)
    (_hr : 0 < r.2) (h1 : fracLt b x = false) (h2 : fracLt b r = true) :
    fracLt x r = true := by
  have h1' : x.1 * b.2 ≤ b.1 * x.2 := by
    simp only [fracLt, decide_eq_false_iff_not] at h1
    omega
  rw [fracLt_iff] at h2 ⊢
  have c1 : x.1 * r.2 * b.2 ≤ b.1 * r.2 * x.2 := by
    calc x.1 * r.2 * b.2 = x.1 * b.2 * r.2 := by ring
      _ ≤ b.1 * x.2 * r.2 := Nat.mul_le_mul_right _ h1'
      _ = b.1 * r.2 * x.2 := by ring
  have c2 : b.1 * r.2 * x.2 < r.1 * b.2 * x.2 := (Nat.mul_lt_mul_right hx).mpr h2
  have h3 : x.1 * r.2 * b.2 < r.1 * x.2 * b.2 := by
    calc x.1 * r.2 * b.2 ≤ b.1 * r.2 * x.2 := c1
      _ < r.1 * b.2 * x.2 := c2
      _ = r.1 * x.2 * b.2 := by ring
  exact (Nat.mul_lt_mul_right hb).mp h3

theorem simScore_den_pos (a b : List Char) : 0 < (simScore a b).2 := by
  rw [simScore]
  by_cases h : (a.length + b.length == 0) = true
  · rw [if_pos h]
    omega
  · rw [if_neg h]
    simp only [beq_iff_eq] at h
    omega

theorem simOf_den_pos (ocr : List Char) (row : Row) : 0 < (simOf ocr row).2 :=
  simScore_den_pos _ _

/-- Characterization of the best-candidate fold from an arbitrary state:
either no suffix-sharing row strictly improves on the incoming score and
the state is unchanged, or the result is the first row `r` attaining the
maximum score among the candidates — every earlier candidate scores
strictly below `r`, every later one at most `r`. -/
theorem matchFold_char (ocr key : List Char) :
    ∀ (rows : List Row) (o : Option Row) (b : Nat × Nat), 0 < b.2 →
    ((∀ row ∈ rows, rosterSuffixOk key row = true →
        fracLt b (simOf ocr row) = false)
      ∧ rows.foldl (matchStep ocr key) (o, b) = (o, b))
    ∨ (∃ l1 r l2, rows = l1 ++ r :: l2
        ∧ rosterSuffixOk key r = true
        ∧ fracLt b (simOf ocr r) = true
        ∧ (∀ row ∈ l1, rosterSuffixOk key row = true →
            fracLt (simOf ocr row) (simOf ocr r) = true)
        ∧ (∀ row ∈ l2, rosterSuffixOk key row = true →
            fracLt (simOf ocr r) (simOf ocr row) = false)
        ∧ rows.foldl (matchStep ocr key) (o, b) = (some r, simOf ocr r)) := by
  intro rows
  induction rows with
  | nil =>
    intro o b _
    exact Or.inl ⟨by simp, rfl⟩
  | cons row rest ih =>
    intro o b hb
    rw [List.foldl_cons]
    by_cases hc : rosterSuffixOk key row = true
    · by_cases hlt : fracLt b (simOf ocr row) = true
      · have hstep : matchStep ocr key (o, b) row = (some row, simOf ocr row) := by
          rw [matchStep, if_pos hc, if_pos hlt]
        rw [hstep]
        rcases ih (some row) (simOf ocr row) (simOf_den_pos ocr row) with
          ⟨hall, heq⟩ | ⟨l1, r, l2, hsplit, hcand, hblt, hl1, hl2, heq⟩
        · refine Or.inr ⟨[], row, rest, by simp, hc, hlt, by simp, hall, heq⟩
        · refine Or.inr ⟨row :: l1, r, l2, by rw [hsplit]; rfl, hcand, ?_, ?_, hl2, heq⟩
          · exact fracLt_trans hb (simOf_den_pos ocr row) (simOf_den_pos ocr r) hlt hblt
          · intro row' hrow' hc'
            rcases List.mem_cons.mp hrow' with rfl | hrow'
            · exact hblt
            · exact hl1 row' hrow' hc'
      · have hlt' : fracLt b (simOf ocr row) = false := by
          simpa using hlt
        have hstep : matchStep ocr key (o, b) row = (o, b) := by
          rw [matchStep, if_pos hc, if_neg hlt]
        rw [hstep]
        rcases ih o b hb with ⟨hall, heq⟩ | ⟨l1, r, l2, hsplit, hcand, hblt, hl1, hl2, heq⟩
        · refine Or.inl ⟨?_, heq⟩
          intro row' hrow' hc'
          rcases List.mem_cons.mp hrow' with rfl | hrow'
          · exact hlt'
          · exact hall row' hrow' hc'
        · refine Or.inr ⟨row :: l1, r, l2, by rw [hsplit]; rfl, hcand, hblt, ?_, hl2, heq⟩
          intro row' hrow' hc'
          rcases List.mem_cons.mp hrow' with rfl | hrow'
          · exact fracLt_of_nlt_of_lt hb (simOf_den_pos ocr row')
              (simOf_den_pos ocr r) hlt' hblt
          · exact hl1 row' hrow' hc'
    · have hc' : rosterSuffixOk key row = false := by
        simpa using hc
      have hstep : matchStep ocr key (o, b) row = (o, b) := by
        rw [matchStep, if_neg hc]
      rw [hstep]
      rcases ih o b hb with ⟨hall, heq⟩ | ⟨l1, r, l2, hsplit, hcand, hblt, hl1, hl2, heq⟩
      · refine Or.inl ⟨?_, heq⟩
        intro row' hrow' h''
        rcases List.mem_cons.mp hrow' with rfl | hrow'
        · rw [hc'] at h''
          exact absurd h'' (by simp)
        · exact hall row' hrow' h''
      · refine Or.inr ⟨row :: l1, r, l2, by rw [hsplit]; rfl, hcand, hblt, ?_, hl2, heq⟩
        intro row' hrow' h''
        rcases List.mem_cons.mp hrow' with rfl | hrow'
        · rw [hc'] at h''
          exact absurd h'' (by simp)
        · exact hl1 row' hrow' h''

/-! ## Lemmas: a shared character gives a positive similarity (C3) -/

theorem mem_get? {c : Char} : ∀ {l : List Char}, c ∈ l →
    ∃ i, i < l.length ∧ l.get? i = some c := by
  intro l
  induction l with
  | nil => intro h; simp at h
  | cons x xs ih =>
    intro h
    rcases List.mem_cons.mp h with rfl | h
    · exact ⟨0, by simp, rfl⟩
    · obtain ⟨i, hi, hg⟩ := ih h
      exact ⟨i + 1, by simpa using hi, by simpa using hg⟩

theorem foldl_measure_mono {β : Type} (g : β → Nat → β) (μ : β → Nat)
    (hg : ∀ st x, μ st ≤ μ (g st x)) :
    ∀ (l : List Nat) (st : β), μ st ≤ μ (l.foldl g st) := by
  intro l
  induction l with
  | nil => intro st; exact le_refl _
  | cons x xs ih =>
    intro st
    exact le_trans (hg st x) (ih (g st x))

theorem foldl_measure_attain {β : Type} (g : β → Nat → β) (μ : β → Nat)
    (hg : ∀ st x, μ st ≤ μ (g st x)) (x0 : Nat)
    (hatt : ∀ st, 1 ≤ μ (g st x0)) :
    ∀ (l : List Nat) (st : β), x0 ∈ l → 1 ≤ μ (l.foldl g st) := by
  intro l
  induction l with
  | nil => intro st h; simp at h
  | cons x xs ih =>
    intro st h
    rcases List.mem_cons.mp h with rfl | h
    · exact le_trans (hatt st) (foldl_measure_mono g μ hg xs (g st x0))
    · exact ih (g st x) h

theorem flmUpd_mono (a b : List Char) (blo bhi i : Nat) (row : Nat → Nat)
    (bst : Nat × Nat × Nat) (jo : Nat) :
    bst.2.2 ≤ (flmUpd a b blo bhi i row bst jo).2.2 := by
  rw [flmUpd]
  by_cases h : bst.2.2 < flmRow a b blo bhi i row (blo + jo)
  · rw [if_pos h]
    simp only []
    omega
  · rw [if_neg h]

theorem flmUpd_attain (a b : List Char) (blo bhi i : Nat) (row : Nat → Nat)
    (bst : Nat × Nat × Nat) (jo : Nat)
    (h1 : 1 ≤ flmRow a b blo bhi i row (blo + jo)) :
    1 ≤ (flmUpd a b blo bhi i row bst jo).2.2 := by
  rw [flmUpd]
  by_cases h : bst.2.2 < flmRow a b blo bhi i row (blo + jo)
  · rw [if_pos h]
    simp only []
    omega
  · rw [if_neg h]
    omega

theorem flmRow_ge_one (a b : List Char) (blo bhi i : Nat) (row : Nat → Nat)
    (j : Nat) (hlo : blo ≤ j) (hhi : j < bhi) (hch : chMatch a b i j = true) :
    1 ≤ flmRow a b blo bhi i row j := by
  rw [flmRow]
  rw [if_pos (by simp [hlo, hhi, hch])]
  by_cases hz : (j == 0) = true
  · rw [if_pos hz]
  · rw [if_neg hz]
    omega

theorem flmStep_mono (a b : List Char) (blo bhi i : Nat)
    (st : (Nat → Nat) × (Nat × Nat × Nat)) :
    st.2.2.2 ≤ (flmStep a b blo bhi i st).2.2.2 := by
  rw [flmStep]
  exact foldl_measure_mono _ (fun bst : Nat × Nat × Nat => bst.2.2)
    (flmUpd_mono a b blo bhi i st.1) _ st.2

theorem flm_pos {a b : List Char} {i j : Nat} (hi : i < a.length)
    (hj : j < b.length) (hch : chMatch a b i j = true) :
    1 ≤ (findLongestMatch a b 0 a.length 0 b.length).2.2 := by
  rw [findLongestMatch]
  refine foldl_measure_attain _ (fun st : (Nat → Nat) × (Nat × Nat × Nat) => st.2.2.2)
    (fun st io => flmStep_mono a b 0 b.length (0 + io) st) i ?_ _ _ ?_
  · intro st
    rw [flmStep]
    refine foldl_measure_attain _ (fun bst : Nat × Nat × Nat => bst.2.2)
      (flmUpd_mono a b 0 b.length (0 + i) st.1) j ?_ _ _ ?_
    · intro bst
      refine flmUpd_attain a b 0 b.length (0 + i) st.1 bst j ?_
      refine flmRow_ge_one a b 0 b.length (0 + i) st.1 (0 + j) (by omega) (by omega) ?_
      have hi' : 0 + i = i := by omega
      have hj' : 0 + j = j := by omega
      rw [hi', hj']
      exact hch
    · simp only [List.mem_range]
      omega
  · simp only [List.mem_range]
    omega

theorem matchSumAux_pos {a b : List Char} (fuel alo ahi blo bhi : Nat)
    (h : 1 ≤ (findLongestMatch a b alo ahi blo bhi).2.2) :
    1 ≤ matchSumAux a b (fuel + 1) alo ahi blo bhi := by
  rw [matchSumAux]
  rcases hflm : findLongestMatch a b alo ahi blo bhi with ⟨i, jk⟩
  rcases jk with ⟨j, k⟩
  rw [hflm] at h
  simp only at h
  simp only [hflm]
  have hk0 : (k == 0) = false := by
    simp only [beq_eq_false_iff_ne, ne_eq]
    omega
  rw [if_neg (by simp [hk0] : ¬((k == 0) = true))]
  omega

theorem matchTotal_pos {a b : List Char} {c : Char} (ha : c ∈ a) (hb : c ∈ b) :
    1 ≤ matchTotal a b := by
  obtain ⟨i, hi, hgi⟩ := mem_get? ha
  obtain ⟨j, hj, hgj⟩ := mem_get? hb
  have hch : chMatch a b i j = true := by
    rw [chMatch, hgi, hgj]
    simp
  exact matchSumAux_pos _ _ _ _ _ (flm_pos hi hj hch)

theorem simScore_pos {a b : List Char} {c : Char} (ha : c ∈ a) (hb : c ∈ b) :
    fracLt (0, 1) (simScore a b) = true := by
  have hM := matchTotal_pos ha hb
  rw [simScore]
  have hT : (a.length + b.length == 0) = false := by
    have : a ≠ [] := by rintro rfl; simp at ha
    simp only [beq_eq_false_iff_ne, ne_eq]
    intro hz
    have : a.length = 0 := by omega
    simp [List.length_eq_zero] at this
    exact ‹a ≠ []› this
  rw [if_neg (by simp [hT] : ¬((a.length + b.length == 0) = true))]
  rw [fracLt_iff]
  simp only []
  omega

/-! ## Lemmas: suffix keys share characters with their strings (C3) -/

theorem digitRunsAux_chars (P : Char → Prop) : ∀ {s cur : List Char},
    (∀ c ∈ cur, P c) → (∀ c ∈ s, P c) →
    ∀ r ∈ digitRunsAux s cur, ∀ c ∈ r, P c := by
  intro s
  induction s with
  | nil =>
    intro cur hcur _ r hr
    simp only [digitRunsAux] at hr
    by_cases hc : cur.isEmpty
    · rw [if_pos hc] at hr
      simp at hr
    · rw [if_neg hc] at hr
      rcases List.mem_singleton.mp hr with rfl
      intro c hcm
      exact hcur c (List.mem_reverse.mp hcm)
  | cons x xs ih =>
    intro cur hcur hs r hr
    simp only [digitRunsAux] at hr
    have hx : P x := hs x (List.mem_cons_self x xs)
    have hxs : ∀ c ∈ xs, P c := fun c hc => hs c (List.mem_cons_of_mem x hc)
    by_cases hd : x.isDigit
    · rw [if_pos hd] at hr
      refine ih ?_ hxs r hr
      intro c hc
      rcases List.mem_cons.mp hc with rfl | hc
      · exact hx
      · exact hcur c hc
    · rw [if_neg hd] at hr
      by_cases he : cur.isEmpty
      · rw [if_pos he] at hr
        exact ih (by simp) hxs r hr
      · rw [if_neg he] at hr
        rcases List.mem_cons.mp hr with rfl | hr
        · intro c hcm
          exact hcur c (List.mem_reverse.mp hcm)
        · exact ih (by simp) hxs r hr

theorem digitRuns_chars {s : List Char} {r : List Char} (hr : r ∈ digitRuns s) :
    ∀ c ∈ r, c ∈ s :=
  digitRunsAux_chars (fun c => c ∈ s) (by simp) (fun _ hc => hc) r hr

theorem getLast?_mem {α : Type} {l : List α} {x : α} (h : l.getLast? = some x) :
    x ∈ l := by
  induction l with
  | nil => simp at h
  | cons a rest ih =>
    cases rest with
    | nil =>
      simp only [List.getLast?_singleton, Option.some.injEq] at h
      subst h
      exact List.mem_singleton_self _
    | cons b rest2 =>
      rw [List.getLast?_cons_cons] at h
      exact List.mem_cons_of_mem a (ih h)

theorem lastTake_mem {n : Nat} {l : List Char} {c : Char}
    (h : c ∈ lastTake n l) : c ∈ l :=
  List.mem_of_mem_drop h

/-- A successful suffix key has length 4 and all its characters occur in
the extracted string. -/
theorem plateKey_chars {ocr key : List Char} (h : plateKey ocr = some key) :
    key.length = 4 ∧ ∀ c ∈ key, c ∈ ocr := by
  rw [plateKey] at h
  cases hlast : (digitRuns ocr).getLast? with
  | none => rw [hlast] at h; simp at h
  | some r =>
    rw [hlast] at h
    have h2 : (if ((lastTake 4 r).length == 4) = true
        then some (lastTake 4 r) else none) = some key := h
    by_cases h4 : ((lastTake 4 r).length == 4) = true
    · rw [if_pos h4] at h2
      simp only [Option.some.injEq] at h2
      subst h2
      refine ⟨by simpa using h4, ?_⟩
      intro c hc
      exact digitRuns_chars (getLast?_mem hlast) c (lastTake_mem hc)
    · rw [if_neg h4] at h2
      simp at h2

/-- A suffix-sharing roster row's plate contains every character of the
key. -/
theorem rosterSuffixOk_chars {key : List Char} {row : Row}
    (h : rosterSuffixOk key row = true) :
    ∀ c ∈ key, c ∈ rowGetD row ("차량번호".toList) := by
  rw [rosterSuffixOk] at h
  cases hlast : (digitRuns (rowGetD row ("차량번호".toList))).getLast? with
  | none => rw [hlast] at h; simp at h
  | some vr =>
    rw [hlast] at h
    have heq : lastTake 4 vr = key := by simpa using h
    intro c hc
    rw [← heq] at hc
    exact digitRuns_chars (getLast?_mem hlast) c (lastTake_mem hc)

/-- Any suffix-sharing candidate scores strictly above the initial
`best_score = 0`. -/
theorem simOf_pos {ocr key : List Char} {row : Row}
    (hk : plateKey ocr = some key) (hc : rosterSuffixOk key row = true) :
    fracLt (0, 1) (simOf ocr row) = true := by
  obtain ⟨hlen, hsub⟩ := plateKey_chars hk
  have hne : key ≠ [] := by
    intro h
    rw [h] at hlen
    simp at hlen
  obtain ⟨c, hcmem⟩ := List.exists_mem_of_ne_nil key hne
  exact simScore_pos (hsub c hcmem) (rosterSuffixOk_chars hc c hcmem)

/-- C3: the plate matcher.  It returns none when the roster is absent, when
the final digit run of the extracted string has fewer than four digits
(`plateKey` fails), or when no roster entry shares the four-digit suffix
key (computed identically on the roster side); when it returns an entry,
that entry shares the suffix and has maximal `SequenceMatcher` similarity
to the raw extracted string, the first-seen entry winning ties (every
earlier candidate scores strictly lower); when some entry does share the
suffix, a match is always returned; and a suffix match is returned even
when the prefix differs, as on the spec's vector
`matchPlate("99나3456", roster with "12가3456")`. -/
theorem claim_C3 :
    (∀ ocr, match_vehicle_number none ocr = none)
    ∧ (∀ rows ocr, plateKey ocr = none →
        match_vehicle_number (some rows) ocr = none)
    ∧ (∀ rows ocr key, plateKey ocr = some key →
        (∀ row ∈ rows, rosterSuffixOk key row = false) →
        match_vehicle_number (some rows) ocr = none)
    ∧ (∀ rows ocr key r, plateKey ocr = some key →
        match_vehicle_number (some rows) ocr = some r →
        r ∈ rows ∧ rosterSuffixOk key r = true
        ∧ (∀ row ∈ rows, rosterSuffixOk key row = true →
            fracLt (simOf ocr r) (simOf ocr row) = false)
        ∧ (∃ l1 l2, rows = l1 ++ r :: l2
            ∧ ∀ row ∈ l1, rosterSuffixOk key row = true →
                fracLt (simOf ocr row) (simOf ocr r) = true))
    ∧ (∀ rows ocr key, plateKey ocr = some key →
        (∃ row ∈ rows, rosterSuffixOk key row = true) →
        (match_vehicle_number (some rows) ocr).isSome = true)
    ∧ match_vehicle_number
        (some [[(("차량번호".toList), "12가3456".toList)]]) ("99나3456".toList)
      = some [(("차량번호".toList), "12가3456".toList)] := by
  have hkey_ne : ∀ {ocr key : List Char}, plateKey ocr = some key →
      ocr.isEmpty = false := by
    intro ocr key hk
    obtain ⟨hlen, hsub⟩ := plateKey_chars hk
    have hne : key ≠ [] := by
      intro h
      rw [h] at hlen
      simp at hlen
    obtain ⟨c, hc⟩ := List.exists_mem_of_ne_nil key hne
    have : c ∈ ocr := hsub c hc
    rcases ocr with _ | _
    · simp at this
    · rfl
  refine ⟨?_, ?_, ?_, ?_, ?_, by decide⟩
  · intro ocr
    rw [match_vehicle_number]
    by_cases he : ocr.isEmpty
    · rw [if_pos he]
    · rw [if_neg he]
  · intro rows ocr hk
    rw [match_vehicle_number]
    by_cases he : ocr.isEmpty
    · rw [if_pos he]
    · rw [if_neg he]
      rw [hk]
  · intro rows ocr key hk hnone
    rw [match_vehicle_number, if_neg (by simp [hkey_ne hk]), hk]
    show (matchFold ocr key rows).1 = none
    rw [matchFold]
    rcases matchFold_char ocr key rows none (0, 1) (by omega) with
      ⟨_, heq⟩ | ⟨l1, r, l2, hsplit, hcand, _, _, _, _⟩
    · rw [heq]
    · rw [hnone r (by rw [hsplit]; exact List.mem_append_right l1 (List.mem_cons_self r l2))] at hcand
      exact absurd hcand (by simp)
  · intro rows ocr key r hk hr
    rw [match_vehicle_number, if_neg (by simp [hkey_ne hk]), hk] at hr
    have hr2 : (rows.foldl (matchStep ocr key) (none, (0, 1))).1 = some r := hr
    rcases matchFold_char ocr key rows none (0, 1) (by omega) with
      ⟨_, heq⟩ | ⟨l1, r', l2, hsplit, hcand, _, hl1, hl2, heq⟩
    · rw [heq] at hr2
      simp at hr2
    · rw [heq] at hr2
      simp only [Option.some.injEq] at hr2
      have hr3 : r = r' := hr2.symm
      subst hr3
      have hmem : r ∈ rows := by
        rw [hsplit]
        exact List.mem_append_right l1 (List.mem_cons_self r l2)
      refine ⟨hmem, hcand, ?_, l1, l2, hsplit, hl1⟩
      intro row hrow hc
      rw [hsplit] at hrow
      rcases List.mem_append.mp hrow with hrow | hrow
      · exact fracLt_asymm (hl1 row hrow hc)
      · rcases List.mem_cons.mp hrow with rfl | hrow
        · exact fracLt_irrefl _
        · exact hl2 row hrow hc
  · intro rows ocr key hk hex
    rw [match_vehicle_number, if_neg (by simp [hkey_ne hk]), hk]
    show ((matchFold ocr key rows).1).isSome = true
    rw [matchFold]
    rcases matchFold_char ocr key rows none (0, 1) (by omega) with
      ⟨hall, heq⟩ | ⟨l1, r, l2, _, _, _, _, _, heq⟩
    · obtain ⟨row, hrow, hc⟩ := hex
      have := hall row hrow hc
      rw [simOf_pos hk hc] at this
      exact absurd this (by simp)
    · rw [heq]
      rfl

/-- Witness for C3: a short suffix, a non-shared suffix, and a shared
suffix at concrete rosters. -/
theorem claim_C3_witness :
    match_vehicle_number (some [[(("차량번호".toList), "12가3456".toList)]])
        ("12".toList) = none
    ∧ match_vehicle_number (some [[(("차량번호".toList), "77나3456".toList)]])
        ("99가1234".toList) = none
    ∧ (match_vehicle_number (some [[(("차량번호".toList), "12가3456".toList)]])
        ("서울12가3456".toList)).isSome = true :=
  ⟨claim_C3.2.1 [[(("차량번호".toList), "12가3456".toList)]] ("12".toList) (by decide),
   claim_C3.2.2.1 [[(("차량번호".toList), "77나3456".toList)]] ("99가1234".toList)
     ("1234".toList) (by decide) (by decide),
   claim_C3.2.2.2.2.1 [[(("차량번호".toList), "12가3456".toList)]]
     ("서울12가3456".toList) ("3456".toList) (by decide)
     ⟨[(("차량번호".toList), "12가3456".toList)], by decide, by decide⟩⟩

end TemplateApp

